import Mathlib

/-!
Verification of the cosmo repository's markdown chunking pipeline
(backend/markdown_chunking.py, backend/document_processor.py) and quiz
engine (backend/quiz_processor.py).

Python strings are modelled as lists of characters (`Str`); Python string
methods used by the code are modelled by the `py`-prefixed helpers below.
Whitespace and case operations are modelled for the ASCII range, which is
the range the repository's code paths exercise.
-/

set_option maxRecDepth 4000

abbrev Str := List Char

/-- Convert a Lean string literal to the character-list model. -/
def pstr (s : String) : Str := s.data

/-- Python str whitespace class: the characters stripped by str.strip and
matched by the regex class backslash-s (ASCII range). -/
def isPyWs (c : Char) : Bool :=
  c = ' ' || c = '\t' || c = '\n' || c = '\r' || c = '\x0b' || c = '\x0c'

/-- Python str.strip(): drop leading and trailing whitespace. -/
def pyStrip (s : Str) : Str :=
  ((s.dropWhile isPyWs).reverse.dropWhile isPyWs).reverse

/-- Python str.lower(), ASCII range. -/
def pyLower (s : Str) : Str := s.map Char.toLower

/-- Python str.upper(), ASCII range. -/
def pyUpper (s : Str) : Str := s.map Char.toUpper

/-- Prepend a character to the first piece of a split result. -/
def consHead (c : Char) : List Str → List Str
  | [] => [[c]]
  | h :: t => (c :: h) :: t

/-- Split on every character satisfying p, keeping empty pieces
(the semantics of Python str.split with an explicit one-character
separator, generalised to a character class). -/
def splitOnPred (p : Char → Bool) : Str → List Str
  | [] => [[]]
  | c :: rest =>
    if p c then [] :: splitOnPred p rest
    else consHead c (splitOnPred p rest)

/-- Python s.split(chr(10)). -/
def splitNl (s : Str) : List Str := splitOnPred (fun c => c = '\n') s

/-- Python s.split() with no argument: split on whitespace runs,
dropping empty pieces. -/
def pySplitWs (s : Str) : List Str :=
  (splitOnPred isPyWs s).filter (fun t => !t.isEmpty)

/-- Python s.split(sep) for the two-newline separator used by the
chunker, leftmost non-overlapping occurrences. -/
def splitNN : Str → List Str
  | [] => [[]]
  | '\n' :: '\n' :: rest => [] :: splitNN rest
  | c :: rest => consHead c (splitNN rest)

/-- Python sep.join(pieces). -/
def joinSep (sep : Str) : List Str → Str
  | [] => []
  | [x] => x
  | x :: xs => x ++ sep ++ joinSep sep xs

/-- Python s[-k:] (note Python semantics: s[-0:] is the whole string). -/
def pySliceNeg (k : Nat) (s : Str) : Str :=
  if k = 0 then s else s.drop (s.length - k)

/-- The remainder of the string after its first space character, if any. -/
def afterSpace : Str → Option Str
  | [] => none
  | c :: r => if c = ' ' then some r else afterSpace r

/-- tail.find(" ") followed by tail = tail[first_space + 1:] when found:
the overlap tail snapped forward past the first space character. -/
def snapTail (t : Str) : Str := (afterSpace t).getD t

namespace MC
/-! Embedding of backend/markdown_chunking.py. -/

/-- A logical section extracted from a markdown file
(class MarkdownSection of backend/markdown_chunking.py). -/
structure MarkdownSection where
  heading : Str
  heading_text : Str
  heading_level : Nat
  body : Str
  breadcrumb : List Str
deriving DecidableEq, Repr

/-- breadcrumb_path property: breadcrumb joined by " > ". -/
def MarkdownSection.breadcrumb_path (s : MarkdownSection) : Str :=
  joinSep (pstr " > ") s.breadcrumb

/-- A text chunk plus flat string metadata
(class ChunkWithMetadata of backend/markdown_chunking.py); the metadata
dict is modelled as a key-value list in insertion order. -/
structure ChunkWithMetadata where
  text : Str
  metadata : List (Str × Str)
deriving DecidableEq, Repr

/-- The heading regex of parse_markdown_sections: one to six leading
hash marks, then at least one whitespace character, then at least one
further character; yields the level and the stripped heading text. -/
def headingMatch (line : Str) : Option (Nat × Str) :=
  let n := (line.takeWhile (fun c => c = '#')).length
  let rest := line.drop n
  if 1 ≤ n && n ≤ 6 then
    match rest with
    | c :: _ :: _ => if isPyWs c then some (n, pyStrip rest) else none
    | _ => none
  else none

/-- First pass of parse_markdown_sections: record (line index, level,
text) for every heading found outside fenced code blocks. -/
def scanHeadings : List Str → Nat → Bool → List (Nat × Nat × Str)
  | [], _, _ => []
  | line :: rest, i, inCode =>
    if (pstr "```").isPrefixOf (pyStrip line) then
      scanHeadings rest (i + 1) (!inCode)
    else if inCode then
      scanHeadings rest (i + 1) inCode
    else
      match headingMatch line with
      | some (lv, tx) => (i, lv, tx) :: scanHeadings rest (i + 1) inCode
      | none => scanHeadings rest (i + 1) inCode

/-- breadcrumb_stack[level] = text followed by deleting every deeper
level; the dict is modelled as a list sorted by level. -/
def updStack (st : List (Nat × Str)) (lv : Nat) (tx : Str) : List (Nat × Str) :=
  (st.filter (fun p => p.1 < lv)) ++ [(lv, tx)]

/-- Python lines[a:b] joined by newlines and stripped: the body text of
a section spanning from line a to line b (exclusive). -/
def bodySlice (lines : List Str) (a b : Nat) : Str :=
  pyStrip (joinSep (pstr "\n") ((lines.drop a).take (b - a)))

/-- Second pass of parse_markdown_sections: one MarkdownSection per
heading, carrying the breadcrumb stack forward. -/
def buildSections (lines : List Str) : List (Nat × Nat × Str) → List (Nat × Str) → List MarkdownSection
  | [], _ => []
  | (ln, lv, tx) :: rest, st =>
    let nextLine := match rest with
      | (ln2, _, _) :: _ => ln2
      | [] => lines.length
    let body := bodySlice lines (ln + 1) nextLine
    let st' := updStack st lv tx
    { heading := List.replicate lv '#' ++ ' ' :: tx
      heading_text := tx
      heading_level := lv
      body := body
      breadcrumb := st'.map Prod.snd } :: buildSections lines rest st'

/-- The synthetic level-0 Introduction section of
parse_markdown_sections: content before the first heading, when
non-blank after stripping. -/
def introSection (content : Str) : List MarkdownSection :=
  let lines := splitNl content
  let hps := scanHeadings lines 0 false
  let firstHeadingLine := match hps with
    | (ln, _, _) :: _ => ln
    | [] => lines.length
  let preamble := pyStrip (joinSep (pstr "\n") (lines.take firstHeadingLine))
  if preamble ≠ [] then
    [{ heading := []
       heading_text := pstr "Introduction"
       heading_level := 0
       body := preamble
       breadcrumb := [pstr "Introduction"] }]
  else []

/-- parse_markdown_sections of backend/markdown_chunking.py. -/
def parse_markdown_sections (content : Str) : List MarkdownSection :=
  introSection content
    ++ buildSections (splitNl content) (scanHeadings (splitNl content) 0 false) []

/-- Inner word loop of chunk_section: greedy fill of words into temp,
flushing temp when the next word would overflow. -/
def wordStep (max_size : Nat) (acc : List Str × Str) (word : Str) : List Str × Str :=
  let (raws, temp) := acc
  if temp.length + word.length + 1 ≤ max_size then
    (raws, temp ++ (if temp = [] then [] else [' ']) ++ word)
  else
    ((if temp = [] then raws else raws ++ [temp]), word)

/-- Outer paragraph loop of chunk_section: greedy fill of paragraphs
into the current buffer, and word-splitting of oversized paragraphs. -/
def paraStep (max_size : Nat) (acc : List Str × Str) (para0 : Str) : List Str × Str :=
  let para := pyStrip para0
  if para = [] then acc
  else
    let (raws, current) := acc
    if current.length + para.length + 2 ≤ max_size then
      (raws, current ++ (if current = [] then [] else pstr "\n\n") ++ para)
    else
      let raws1 := if current = [] then raws else raws ++ [current]
      if para.length > max_size then
        (pySplitWs para).foldl (wordStep max_size) (raws1, [])
      else (raws1, para)

/-- The raw (pre-overlap) chunks accumulated by chunk_section from a
section body. -/
def rawChunks (body : Str) (max_size : Nat) : List Str :=
  let r := (splitNN body).foldl (paraStep max_size) ([], [])
  if r.2 = [] then r.1 else r.1 ++ [r.2]

/-- Overlap loop of chunk_section for the non-first chunks: each chunk
is prefixed with "[...] " plus the snapped tail of the previous raw
chunk and a blank line. -/
def applyOverlapAux (overlap : Nat) : Str → List Str → List Str
  | _, [] => []
  | prev, c :: rest =>
    (pstr "[...] " ++ snapTail (pySliceNeg overlap prev) ++ pstr "\n\n" ++ c)
      :: applyOverlapAux overlap c rest

/-- chunk_section of backend/markdown_chunking.py. -/
def chunk_section (section_ : MarkdownSection) (max_size : Nat) (overlap : Nat) : List Str :=
  let body := section_.body
  if pyStrip body = [] then []
  else
    match rawChunks body max_size with
    | [] => []
    | r0 :: rest =>
      ((if section_.heading ≠ [] then section_.heading ++ pstr "\n\n" else []) ++ r0)
        :: applyOverlapAux overlap r0 rest

/-- chunk_markdown_file of backend/markdown_chunking.py. -/
def chunk_markdown_file (content filename file_hash : Str)
    (max_size overlap : Nat) : List ChunkWithMetadata :=
  let sections := parse_markdown_sections content
  (sections.enum.map (fun si =>
    ((chunk_section si.2 max_size overlap).enum.map (fun ci =>
      ({ text := ci.2
         metadata := [
           (pstr "source", filename),
           (pstr "file_hash", file_hash),
           (pstr "doc_type", pstr "markdown"),
           (pstr "heading", si.2.heading_text),
           (pstr "heading_level", (Nat.repr si.2.heading_level).data),
           (pstr "breadcrumb", si.2.breadcrumb_path),
           (pstr "chunk_index_in_section", (Nat.repr ci.1).data),
           (pstr "section_index", (Nat.repr si.1).data)] } : ChunkWithMetadata)))
  )).flatten

end MC

/-! Spec-side definitions used to state the claims about the chunker. -/

/-- A raw chunk is within bounds when its length is at most max_size or
it consists of a single word (no whitespace at all). -/
def GoodChunk (max_size : Nat) (c : Str) : Prop :=
  c.length ≤ max_size ∨ ∀ ch ∈ c, isPyWs ch = false

/-- The last k characters of a string, literally (empty for k = 0);
this is the reading of the claim's "last overlap characters". -/
def lastChars (k : Nat) (s : Str) : Str := s.drop (s.length - k)

/-- The remainder of the string after its first whitespace character,
if any; the reading of the claim's "advanced forward past the first
whitespace character". -/
def afterWs : Str → Option Str
  | [] => none
  | c :: r => if isPyWs c then some r else afterWs r

/-- Overlap tail as the claim states it: last overlap characters,
advanced past the first whitespace character. -/
def snapTailWs (t : Str) : Str := (afterWs t).getD t

/-- Chunk list of a section as characterised by the amended claim C2:
built from the raw chunks by index, the first chunk carrying the heading
line, each later chunk carrying the snapped tail of the previous raw
chunk (slice semantics of the source: a zero overlap takes the whole
previous chunk, and the tail is advanced past the first space). -/
def specChunkForm (sec : MC.MarkdownSection) (max_size overlap : Nat) : List Str :=
  let raws := MC.rawChunks sec.body max_size
  if pyStrip sec.body = [] then []
  else
    (List.range raws.length).map (fun i =>
      if i = 0 then
        (if sec.heading ≠ [] then sec.heading ++ pstr "\n\n" else []) ++ raws.getD 0 []
      else
        pstr "[...] " ++ snapTail (pySliceNeg overlap (raws.getD (i - 1) []))
          ++ pstr "\n\n" ++ raws.getD i [])

/-- Heading level at index j of a (level, text) heading list. -/
def lvlAt (hs : List (Nat × Str)) (j : Nat) : Nat := (hs.getD j (0, [])).1

/-- Heading text at index j of a (level, text) heading list. -/
def txtAt (hs : List (Nat × Str)) (j : Nat) : Str := (hs.getD j (0, [])).2

/-- Scan downward from index i for the nearest preceding heading whose
level is strictly below L. -/
def parentIdxAux (hs : List (Nat × Str)) (L : Nat) : Nat → Option Nat
  | 0 => none
  | j + 1 => if lvlAt hs j < L then some j else parentIdxAux hs L j

/-- The nearest enclosing heading of heading i: the largest j < i whose
level is strictly less than the level of heading i. -/
def parentIdx (hs : List (Nat × Str)) (i : Nat) : Option Nat :=
  parentIdxAux hs (lvlAt hs i) i

/-- Fuelled ancestor chain: the chain of nearest enclosing headings
ending at heading i (fuel dominates the recursion depth). -/
def nearestChainF : Nat → List (Nat × Str) → Nat → List Str
  | 0, hs, i => [txtAt hs i]
  | fuel + 1, hs, i =>
    match parentIdx hs i with
    | none => [txtAt hs i]
    | some j => nearestChainF fuel hs j ++ [txtAt hs i]

/-- The breadcrumb the claim C3 predicts for heading i: the texts of the
chain of nearest enclosing headings, ending with heading i itself. -/
def nearestChain (hs : List (Nat × Str)) (i : Nat) : List Str :=
  nearestChainF i hs i

/-- Heading i survives at time k when no later heading up to k has a
level at or below its own. -/
def survB (hs : List (Nat × Str)) (k i : Nat) : Bool :=
  (List.range (k + 1)).all (fun j => j ≤ i || lvlAt hs i < lvlAt hs j)

/-- The indices of the headings still on the breadcrumb stack after
heading k has been processed. -/
def survivors (hs : List (Nat × Str)) (k : Nat) : List Nat :=
  (List.range (k + 1)).filter (survB hs k)

/-- The (level, text) pairs of the headings parsed from a document. -/
def headsOf (content : Str) : List (Nat × Str) :=
  (MC.scanHeadings (splitNl content) 0 false).map (fun h => (h.2.1, h.2.2))

/-- Concrete section used to refute claim C1 as stated: two short
paragraphs, no word longer than 10 characters. -/
def cexC1sec : MC.MarkdownSection :=
  { heading := [], heading_text := pstr "Introduction", heading_level := 0,
    body := pstr "aaaa aaaa\n\nbbbb bbbb", breadcrumb := [pstr "Introduction"] }

/-- Concrete section used to refute claim C2 as stated: its first raw
chunk contains a newline but no space. -/
def cexC2sec : MC.MarkdownSection :=
  { heading := [], heading_text := pstr "Introduction", heading_level := 0,
    body := pstr "ab\ncd\n\nxx", breadcrumb := [pstr "Introduction"] }

namespace DP
/-! Embedding of the duplicated parser and chunker inside
backend/document_processor.py (module-level functions of that file). -/

/-- A logical section extracted from a markdown file
(class MarkdownSection of backend/document_processor.py). -/
structure MarkdownSection where
  heading : Str
  heading_text : Str
  heading_level : Nat
  body : Str
  breadcrumb : List Str
deriving DecidableEq, Repr

/-- breadcrumb_path property: breadcrumb joined by " > ". -/
def MarkdownSection.breadcrumb_path (s : MarkdownSection) : Str :=
  joinSep (pstr " > ") s.breadcrumb

/-- A text chunk plus flat string metadata
(class ChunkWithMetadata of backend/document_processor.py). -/
structure ChunkWithMetadata where
  text : Str
  metadata : List (Str × Str)
deriving DecidableEq, Repr

/-- The heading regex of parse_markdown_sections in
backend/document_processor.py. -/
def headingMatch (line : Str) : Option (Nat × Str) :=
  let n := (line.takeWhile (fun c => c = '#')).length
  let rest := line.drop n
  if 1 ≤ n && n ≤ 6 then
    match rest with
    | c :: _ :: _ => if isPyWs c then some (n, pyStrip rest) else none
    | _ => none
  else none

/-- First pass of parse_markdown_sections in
backend/document_processor.py. -/
def scanHeadings : List Str → Nat → Bool → List (Nat × Nat × Str)
  | [], _, _ => []
  | line :: rest, i, inCode =>
    if (pstr "```").isPrefixOf (pyStrip line) then
      scanHeadings rest (i + 1) (!inCode)
    else if inCode then
      scanHeadings rest (i + 1) inCode
    else
      match headingMatch line with
      | some (lv, tx) => (i, lv, tx) :: scanHeadings rest (i + 1) inCode
      | none => scanHeadings rest (i + 1) inCode

/-- Breadcrumb stack update of backend/document_processor.py. -/
def updStack (st : List (Nat × Str)) (lv : Nat) (tx : Str) : List (Nat × Str) :=
  (st.filter (fun p => p.1 < lv)) ++ [(lv, tx)]

/-- Body slice of a section, backend/document_processor.py. -/
def bodySlice (lines : List Str) (a b : Nat) : Str :=
  pyStrip (joinSep (pstr "\n") ((lines.drop a).take (b - a)))

/-- Second pass of parse_markdown_sections in
backend/document_processor.py. -/
def buildSections (lines : List Str) : List (Nat × Nat × Str) → List (Nat × Str) → List MarkdownSection
  | [], _ => []
  | (ln, lv, tx) :: rest, st =>
    let nextLine := match rest with
      | (ln2, _, _) :: _ => ln2
      | [] => lines.length
    let body := bodySlice lines (ln + 1) nextLine
    let st' := updStack st lv tx
    { heading := List.replicate lv '#' ++ ' ' :: tx
      heading_text := tx
      heading_level := lv
      body := body
      breadcrumb := st'.map Prod.snd } :: buildSections lines rest st'

/-- The synthetic Introduction section of parse_markdown_sections in
backend/document_processor.py. -/
def introSection (content : Str) : List MarkdownSection :=
  let lines := splitNl content
  let hps := scanHeadings lines 0 false
  let firstHeadingLine := match hps with
    | (ln, _, _) :: _ => ln
    | [] => lines.length
  let preamble := pyStrip (joinSep (pstr "\n") (lines.take firstHeadingLine))
  if preamble ≠ [] then
    [{ heading := []
       heading_text := pstr "Introduction"
       heading_level := 0
       body := preamble
       breadcrumb := [pstr "Introduction"] }]
  else []

/-- parse_markdown_sections of backend/document_processor.py. -/
def parse_markdown_sections (content : Str) : List MarkdownSection :=
  introSection content
    ++ buildSections (splitNl content) (scanHeadings (splitNl content) 0 false) []

/-- Inner word loop of chunk_section in backend/document_processor.py. -/
def wordStep (max_size : Nat) (acc : List Str × Str) (word : Str) : List Str × Str :=
  let (raws, temp) := acc
  if temp.length + word.length + 1 ≤ max_size then
    (raws, temp ++ (if temp = [] then [] else [' ']) ++ word)
  else
    ((if temp = [] then raws else raws ++ [temp]), word)

/-- Outer paragraph loop of chunk_section in
backend/document_processor.py. -/
def paraStep (max_size : Nat) (acc : List Str × Str) (para0 : Str) : List Str × Str :=
  let para := pyStrip para0
  if para = [] then acc
  else
    let (raws, current) := acc
    if current.length + para.length + 2 ≤ max_size then
      (raws, current ++ (if current = [] then [] else pstr "\n\n") ++ para)
    else
      let raws1 := if current = [] then raws else raws ++ [current]
      if para.length > max_size then
        (pySplitWs para).foldl (wordStep max_size) (raws1, [])
      else (raws1, para)

/-- The raw (pre-overlap) chunks of chunk_section in
backend/document_processor.py. -/
def rawChunks (body : Str) (max_size : Nat) : List Str :=
  let r := (splitNN body).foldl (paraStep max_size) ([], [])
  if r.2 = [] then r.1 else r.1 ++ [r.2]

/-- Overlap loop of chunk_section in backend/document_processor.py. -/
def applyOverlapAux (overlap : Nat) : Str → List Str → List Str
  | _, [] => []
  | prev, c :: rest =>
    (pstr "[...] " ++ snapTail (pySliceNeg overlap prev) ++ pstr "\n\n" ++ c)
      :: applyOverlapAux overlap c rest

/-- chunk_section of backend/document_processor.py. -/
def chunk_section (section_ : MarkdownSection) (max_size : Nat) (overlap : Nat) : List Str :=
  let body := section_.body
  if pyStrip body = [] then []
  else
    match rawChunks body max_size with
    | [] => []
    | r0 :: rest =>
      ((if section_.heading ≠ [] then section_.heading ++ pstr "\n\n" else []) ++ r0)
        :: applyOverlapAux overlap r0 rest

/-- chunk_markdown_file of backend/document_processor.py. -/
def chunk_markdown_file (content filename file_hash : Str)
    (max_size overlap : Nat) : List ChunkWithMetadata :=
  let sections := parse_markdown_sections content
  (sections.enum.map (fun si =>
    ((chunk_section si.2 max_size overlap).enum.map (fun ci =>
      ({ text := ci.2
         metadata := [
           (pstr "source", filename),
           (pstr "file_hash", file_hash),
           (pstr "doc_type", pstr "markdown"),
           (pstr "heading", si.2.heading_text),
           (pstr "heading_level", (Nat.repr si.2.heading_level).data),
           (pstr "breadcrumb", si.2.breadcrumb_path),
           (pstr "chunk_index_in_section", (Nat.repr ci.1).data),
           (pstr "section_index", (Nat.repr si.1).data)] } : ChunkWithMetadata)))
  )).flatten

/-- Field-preserving conversion between the duplicated section types,
used to compare the two modules. -/
def secToMC (s : MarkdownSection) : MC.MarkdownSection :=
  { heading := s.heading
    heading_text := s.heading_text
    heading_level := s.heading_level
    body := s.body
    breadcrumb := s.breadcrumb }

/-- Field-preserving conversion between the duplicated chunk types. -/
def chunkToMC (c : ChunkWithMetadata) : MC.ChunkWithMetadata :=
  { text := c.text, metadata := c.metadata }

end DP

namespace QP
/-! Embedding of backend/quiz_processor.py. -/

/-- Question dataclass of backend/quiz_processor.py; per the source's
own comment, qtype is one of "tf", "sa", "mc". -/
structure Question where
  id : Str
  qtype : Str
  text : Str
  choices : List Str
  code : Option Str
deriving DecidableEq, Repr

/-- AnswerKeyEntry dataclass of backend/quiz_processor.py. -/
structure AnswerKeyEntry where
  id : Str
  answer : Str
  explanation : Str
deriving DecidableEq, Repr

/-- GradedQuestion dataclass of backend/quiz_processor.py; the float
score takes only the values 1.0, -1.0 and 0.0 and is modelled as Int. -/
structure GradedQuestion where
  question : Question
  llm_answer : Str
  llm_extracted : Str
  correct_answer : Str
  correct_explanation : Str
  is_correct : Option Bool
  score : Int
deriving DecidableEq, Repr

/-- Python regex word character (ASCII range). -/
def isWordChar (c : Char) : Bool := c.isAlphanum || c = '_'

/-- Match a literal pattern at the head of the string, returning the
rest on success. -/
def matchLit (pat s : Str) : Option Str :=
  if pat.isPrefixOf s then some (s.drop pat.length) else none

/-- Match one-or-more whitespace (maximal munch; faithful here because
every following literal starts with a non-whitespace character). -/
def skipWs1 : Str → Option Str
  | [] => none
  | c :: rest => if isPyWs c then some (rest.dropWhile isPyWs) else none

/-- Match the alternation (true|false) at the head of the string. -/
def matchTF (s : Str) : Option (Bool × Str) :=
  match matchLit (pstr "true") s with
  | some r => some (true, r)
  | none =>
    match matchLit (pstr "false") s with
    | some r => some (false, r)
    | none => none

/-- A word-boundary holds after the consumed text when the next
character is absent or not a word character. -/
def boundaryAfter : Str → Bool
  | [] => true
  | c :: _ => !isWordChar c

/-- First successful application of f along a list. -/
def firstSome (f : α → Option β) : List α → Option β
  | [] => none
  | x :: xs =>
    match f x with
    | some b => some b
    | none => firstSome f xs

/-- re.search for a pattern that must start at a word boundary on a
word character: try f at every position whose previous character is not
a word character, leftmost first. -/
def scanBdry (f : Str → Option β) : Str → Bool → Option β
  | [], _ => none
  | c :: rest, prevW =>
    match (if prevW then none else f (c :: rest)) with
    | some r => some r
    | none => scanBdry f rest (isWordChar c)

/-- re.search with no boundary requirement: try f at every suffix,
leftmost first. -/
def scanAll (f : Str → Option β) : Str → Option β
  | [] => none
  | c :: rest =>
    match f (c :: rest) with
    | some r => some r
    | none => scanAll f rest

/-- The subject alternatives of the first-line verdict pattern of
_extract_tf. -/
def tfKeywords : List Str :=
  [pstr "answer", pstr "statement", pstr "claim", pstr "assertion", pstr "this"]

/-- One position of the pattern (?:answer|statement|claim|assertion|
this)\s+is\s+(true|false)\b of _extract_tf. -/
def tfVerdictCore (s : Str) : Option Bool :=
  firstSome (fun kw =>
    (matchLit kw s).bind fun r1 =>
    (skipWs1 r1).bind fun r2 =>
    (matchLit (pstr "is") r2).bind fun r3 =>
    (skipWs1 r3).bind fun r4 =>
    (matchTF r4).bind fun br =>
    if boundaryAfter br.2 then some br.1 else none) tfKeywords

/-- One position of \b(true|false)\b of _extract_tf. -/
def tfWordAt (s : Str) : Option Bool :=
  (matchTF s).bind fun br => if boundaryAfter br.2 then some br.1 else none

/-- One position of \*\*(true|false)\*\* of _extract_tf. -/
def tfBoldAt (s : Str) : Option Bool :=
  (matchLit (pstr "**") s).bind fun r1 =>
  (matchTF r1).bind fun br =>
  (matchLit (pstr "**") br.2).map fun _ => br.1

/-- One position of :\s*(true|false)\b of _extract_tf. -/
def tfColonAt (s : Str) : Option Bool :=
  (matchLit (pstr ":") s).bind fun r1 =>
  (matchTF (r1.dropWhile isPyWs)).bind fun br =>
  if boundaryAfter br.2 then some br.1 else none

/-- Optional word followed by mandatory whitespace, as in (?:the\s+)?. -/
def afterOptWord (w : Str) (s : Str) : Option Str :=
  (matchLit w s).bind skipWs1

/-- The mandatory part answer\s+is\s+(true|false)\b of the
anywhere-verdict pattern of _extract_tf. -/
def tfAnswerIsCore (s : Str) : Option Bool :=
  (matchLit (pstr "answer") s).bind fun r1 =>
  (skipWs1 r1).bind fun r2 =>
  (matchLit (pstr "is") r2).bind fun r3 =>
  (skipWs1 r3).bind fun r4 =>
  (matchTF r4).bind fun br =>
  if boundaryAfter br.2 then some br.1 else none

/-- One position of \b(?:the\s+)?(?:correct\s+)?answer\s+is\s+
(true|false)\b; the optional prefixes are disjoint (distinct first
letters), so trying each candidate start is faithful to backtracking. -/
def tfAnswerIsAt (s : Str) : Option Bool :=
  firstSome (fun c => c.bind tfAnswerIsCore)
    [some s, afterOptWord (pstr "the") s, afterOptWord (pstr "correct") s,
     (afterOptWord (pstr "the") s).bind (afterOptWord (pstr "correct"))]

/-- Number of whole-word occurrences of w, as counted by
re.findall with surrounding word boundaries. -/
def countWord (w : Str) : Str → Bool → Nat
  | [], _ => 0
  | c :: rest, prevW =>
    (if !prevW && (match matchLit w (c :: rest) with
        | some r => boundaryAfter r
        | none => false) then 1 else 0)
      + countWord w rest (isWordChar c)

/-- _extract_tf of backend/quiz_processor.py: the five extraction
passes over the lowercased response. -/
def _extract_tf (response : Str) : Str :=
  let lower := pyLower response
  let stripped_start := lower.dropWhile
    (fun c => isPyWs c || c = '*' || c = '#' || c = '>' || c = '-')
  if (pstr "true").isPrefixOf stripped_start then pstr "T"
  else if (pstr "false").isPrefixOf stripped_start then pstr "F"
  else
    let first_line := lower.takeWhile (fun c => c ≠ '\n')
    match scanBdry tfVerdictCore first_line false with
    | some b => if b then pstr "T" else pstr "F"
    | none =>
    match scanBdry tfWordAt first_line false with
    | some b => if b then pstr "T" else pstr "F"
    | none =>
    let first_lines := joinSep (pstr "\n") ((splitNl lower).take 3)
    match scanAll tfBoldAt first_lines with
    | some b => if b then pstr "T" else pstr "F"
    | none =>
    match scanAll tfColonAt first_lines with
    | some b => if b then pstr "T" else pstr "F"
    | none =>
    match scanBdry tfAnswerIsAt lower false with
    | some b => if b then pstr "T" else pstr "F"
    | none =>
    let true_count := countWord (pstr "true") lower false
    let false_count := countWord (pstr "false") lower false
    if 0 < true_count && false_count = 0 then pstr "T"
    else if 0 < false_count && true_count = 0 then pstr "F"
    else pstr "?"

/-- The multiple-choice letter class [a-d]. -/
def isMcLetter (c : Char) : Bool := c = 'a' || c = 'b' || c = 'c' || c = 'd'

/-- One position of \(([a-d])\) of _extract_mc. -/
def mcParenAt : Str → Option Char
  | '(' :: c :: ')' :: _ => if isMcLetter c then some c else none
  | _ => none

/-- The mandatory part answer\s+is\s+\(?([a-d])\)?\b of the
verdict pattern of _extract_mc; when the letter is followed by ')', the
boundary always holds on one of the two backtracking paths. -/
def mcAnswerIsCore (s : Str) : Option Char :=
  (matchLit (pstr "answer") s).bind fun r1 =>
  (skipWs1 r1).bind fun r2 =>
  (matchLit (pstr "is") r2).bind fun r3 =>
  (skipWs1 r3).bind fun r4 =>
  let r5 := match r4 with
    | '(' :: rest => rest
    | _ => r4
  match r5 with
  | c :: rest =>
    if isMcLetter c then
      match rest with
      | ')' :: _ => some c
      | _ => if boundaryAfter rest then some c else none
    else none
  | [] => none

/-- One position of \b(?:the\s+)?(?:correct\s+)?answer\s+is\s+
\(?([a-d])\)?\b of _extract_mc. -/
def mcAnswerIsAt (s : Str) : Option Char :=
  firstSome (fun c => c.bind mcAnswerIsCore)
    [some s, afterOptWord (pstr "the") s, afterOptWord (pstr "correct") s,
     (afterOptWord (pstr "the") s).bind (afterOptWord (pstr "correct"))]

/-- One position of \*\*\(?([a-d])\)?\*\* of _extract_mc. -/
def mcBoldAt (s : Str) : Option Char :=
  (matchLit (pstr "**") s).bind fun r1 =>
  let r2 := match r1 with
    | '(' :: rest => rest
    | _ => r1
  match r2 with
  | c :: rest =>
    if isMcLetter c then
      match rest with
      | ')' :: rest2 => if (pstr "**").isPrefixOf rest2 then some c else none
      | _ => if (pstr "**").isPrefixOf rest then some c else none
    else none
  | [] => none

/-- The core \s*([a-d])[.:)\s] of the line-start pattern of
_extract_mc. -/
def mcLineCore (s : Str) : Option Char :=
  match s.dropWhile isPyWs with
  | c :: d :: _ =>
    if isMcLetter c && (d = '.' || d = ':' || d = ')' || isPyWs d)
    then some c else none
  | _ => none

/-- Anchors of (?:^|\n) after the first position: try the core after
every newline, leftmost first. -/
def mcLineAfterNl : Str → Option Char
  | [] => none
  | c :: rest =>
    if c = '\n' then
      match mcLineCore rest with
      | some x => some x
      | none => mcLineAfterNl rest
    else mcLineAfterNl rest

/-- One search of (?:^|\n)\s*([a-d])[.:)\s] of _extract_mc. -/
def mcLineStart (s : Str) : Option Char :=
  match mcLineCore s with
  | some c => some c
  | none => mcLineAfterNl s

/-- Pass 5 of _extract_mc: the first character whose lowercase form is
a-d, returned lowercased. -/
def mcFirstLetter : Str → Option Char
  | [] => none
  | c :: rest =>
    if isMcLetter (Char.toLower c) then some (Char.toLower c)
    else mcFirstLetter rest

/-- _extract_mc of backend/quiz_processor.py: the five extraction
passes. -/
def _extract_mc (response : Str) : Str :=
  let cleaned := pyStrip response
  let lower := pyLower cleaned
  match scanAll mcParenAt cleaned with
  | some c => [c]
  | none =>
  match scanBdry mcAnswerIsAt lower false with
  | some c => [c]
  | none =>
  match scanAll mcBoldAt lower with
  | some c => [c]
  | none =>
  match mcLineStart lower with
  | some c => [c]
  | none =>
  match mcFirstLetter cleaned with
  | some c => [c]
  | none => pstr "?"

/-- extract_answer of backend/quiz_processor.py. -/
def extract_answer (llm_response : Str) (qtype : Str) : Str :=
  let cleaned := pyStrip llm_response
  if cleaned = [] then pstr "?"
  else if qtype = pstr "tf" then _extract_tf cleaned
  else if qtype = pstr "mc" then _extract_mc cleaned
  else cleaned

/-- Python answer_key.get(question.id): lookup in the answer-key dict,
modelled as an association list with unique keys. -/
def dictGet : List (Str × AnswerKeyEntry) → Str → Option AnswerKeyEntry
  | [], _ => none
  | (k, v) :: rest, q => if k = q then some v else dictGet rest q

/-- grade_question of backend/quiz_processor.py. -/
def grade_question (question : Question) (llm_answer : Str)
    (answer_key : List (Str × AnswerKeyEntry)) : GradedQuestion :=
  match dictGet answer_key question.id with
  | none =>
    { question := question
      llm_answer := llm_answer
      llm_extracted := pstr "?"
      correct_answer := pstr "?"
      correct_explanation := pstr "No answer key entry"
      is_correct := none
      score := 0 }
  | some entry =>
    let extracted := extract_answer llm_answer question.qtype
    if question.qtype = pstr "tf" || question.qtype = pstr "mc" then
      let ic : Bool := pyUpper extracted == pyUpper entry.answer
      { question := question
        llm_answer := llm_answer
        llm_extracted := extracted
        correct_answer := entry.answer
        correct_explanation := entry.explanation
        is_correct := some ic
        score := if ic then 1 else -1 }
    else
      { question := question
        llm_answer := llm_answer
        llm_extracted := extracted
        correct_answer := entry.answer
        correct_explanation := entry.explanation
        is_correct := none
        score := 0 }

/-- filter_questions of backend/quiz_processor.py on the shuffle=False
path (the claims fix shuffle to false; the shuffle branch permutes
filtered randomly and is not part of this embedding). The Python
truthiness test "if sections:" skips filtering when the set is None or
empty. -/
def filter_questions (questions : List Question)
    (answer_key : List (Str × AnswerKeyEntry))
    (sections : Option (List Str)) (limit : Option Nat) :
    List Question × List (Str × AnswerKeyEntry) :=
  let filtered :=
    match sections with
    | some s => if s ≠ [] then questions.filter (fun q => q.qtype ∈ s) else questions
    | none => questions
  let filtered2 :=
    match limit with
    | some n => if n < filtered.length then filtered.take n else filtered
    | none => filtered
  (filtered2,
   answer_key.filter (fun kv => kv.1 ∈ filtered2.map (fun q => q.id)))

/-- _score_summary of backend/quiz_processor.py: (total, correct,
incorrect, ungraded, accuracy); the float accuracy is modelled as an
exact rational. -/
def _score_summary (graded : List GradedQuestion) : Nat × Nat × Nat × Nat × Rat :=
  let total := graded.length
  let correct := (graded.filter (fun g => g.is_correct = some true)).length
  let incorrect := (graded.filter (fun g => g.is_correct = some false)).length
  let ungraded := (graded.filter (fun g => g.is_correct = none)).length
  let gradable := total - ungraded
  let accuracy : Rat := if 0 < gradable then (correct : Rat) / (gradable : Rat) else 0
  (total, correct, incorrect, ungraded, accuracy)

/-- BenchmarkResult dataclass of backend/quiz_processor.py; floats are
modelled as exact rationals. -/
structure BenchmarkResult where
  label : Str
  mode : Str
  use_rag : Bool
  grounded : Bool
  total : Nat
  correct : Nat
  incorrect : Nat
  ungraded : Nat
  accuracy : Rat
  elapsed : Rat
  graded : List GradedQuestion
deriving DecidableEq, Repr

/-- QuizBenchmarkSummary dataclass of backend/quiz_processor.py. -/
structure QuizBenchmarkSummary where
  quiz_title : Str
  quiz_path : Str
  results : List BenchmarkResult
deriving DecidableEq, Repr

/-- One per-config aggregation dict of _aggregate_by_config; the
"accuracy" key, absent until the second phase sets it, is modelled as a
field initialised to 0 and overwritten for every entry. -/
structure AggEntry where
  total : Nat
  correct : Nat
  incorrect : Nat
  ungraded : Nat
  elapsed : Rat
  quiz_accuracies : List (Str × Rat)
  accuracy : Rat
deriving DecidableEq, Repr

/-- The fresh aggregation entry created when a label is first seen. -/
def aggInit : AggEntry :=
  { total := 0, correct := 0, incorrect := 0, ungraded := 0,
    elapsed := 0, quiz_accuracies := [], accuracy := 0 }

/-- The += updates applied to a label's entry for one result. -/
def bump (e : AggEntry) (title : Str) (r : BenchmarkResult) : AggEntry :=
  { total := e.total + r.total
    correct := e.correct + r.correct
    incorrect := e.incorrect + r.incorrect
    ungraded := e.ungraded + r.ungraded
    elapsed := e.elapsed + r.elapsed
    quiz_accuracies := e.quiz_accuracies ++ [(title, r.accuracy)]
    accuracy := e.accuracy }

/-- Membership test "r.label not in agg" of _aggregate_by_config. -/
def dictHas (agg : List (Str × AggEntry)) (k : Str) : Bool :=
  agg.any (fun kv => kv.1 = k)

/-- Dict lookup on the aggregation dict. -/
def aggLookup : List (Str × AggEntry) → Str → Option AggEntry
  | [], _ => none
  | (k, v) :: rest, q => if k = q then some v else aggLookup rest q

/-- Body of the inner loop of _aggregate_by_config: insert a fresh
entry when the label is new, then apply the += updates. -/
def aggStep (title : Str) (agg : List (Str × AggEntry)) (r : BenchmarkResult) :
    List (Str × AggEntry) :=
  let agg1 := if dictHas agg r.label then agg else agg ++ [(r.label, aggInit)]
  agg1.map (fun kv => if kv.1 = r.label then (kv.1, bump kv.2 title r) else kv)

/-- The second loop of _aggregate_by_config: recompute an entry's
accuracy from its aggregated correct and gradable counts. -/
def finalizeAcc (e : AggEntry) : AggEntry :=
  let gradable := e.total - e.ungraded
  { e with accuracy :=
      if 0 < gradable then (e.correct : Rat) / (gradable : Rat) else 0 }

/-- _aggregate_by_config of backend/quiz_processor.py: accumulate
per-label totals across all quizzes, then recompute each accuracy from
the aggregated correct and gradable counts. -/
def _aggregate_by_config (summaries : List QuizBenchmarkSummary) :
    List (Str × AggEntry) :=
  (summaries.foldl
    (fun agg s => s.results.foldl (aggStep s.quiz_title) agg) []).map
    (fun kv => (kv.1, finalizeAcc kv.2))

/-- A question of the Apollo JSON quiz format, modelled with the typed
fields the parser reads (q.get defaults applied): "answer" is a Bool in
true_false sections and a numeric index in multiple_choice sections. -/
structure JQuestion where
  id : Str
  question : Str
  options : List Str
  answerBool : Bool
  answerIdx : Nat
  model_answer : Str
  explanation : Str
  code : Option Str
deriving DecidableEq, Repr

/-- A quiz of the Apollo JSON format: optional id (q.get("id") may be
missing), title, scope, and typed sections of questions. -/
structure JQuiz where
  id : Option Str
  title : Str
  scope : Str
  sections : List (Str × List JQuestion)
deriving DecidableEq, Repr

/-- The parsed JSON file: its "quizzes" array. -/
structure JFile where
  quizzes : List JQuiz
deriving DecidableEq, Repr

/-- The three ValueError raise sites of parse_json_quiz, with the data
their messages carry. -/
inductive QuizError where
  | noQuizzes : QuizError
  | multipleQuizzes (available : List Str) : QuizError
  | notFound (requested : Str) (available : List Str) : QuizError
deriving DecidableEq, Repr

/-- chr(ord('a') + i): the canonical multiple-choice answer letter for
answer index i. -/
def ansLetter (i : Nat) : Str := [Char.ofNat (97 + i)]

/-- answer_key[qid] = entry: dict assignment, overwriting in place. -/
def dictSet (d : List (Str × AnswerKeyEntry)) (k : Str) (v : AnswerKeyEntry) :
    List (Str × AnswerKeyEntry) :=
  if d.any (fun kv => kv.1 = k) then
    d.map (fun kv => if kv.1 = k then (k, v) else kv)
  else d ++ [(k, v)]

/-- The section loop body of parse_json_quiz: one typed section's
questions appended to the accumulated questions and answer key. -/
def buildFromSection (acc : List Question × List (Str × AnswerKeyEntry))
    (sec : Str × List JQuestion) : List Question × List (Str × AnswerKeyEntry) :=
  sec.2.foldl (fun acc q =>
    if sec.1 = pstr "true_false" then
      (acc.1 ++ [{ id := q.id, qtype := pstr "tf", text := q.question,
                   choices := [], code := none }],
       dictSet acc.2 q.id
         { id := q.id, answer := if q.answerBool then pstr "T" else pstr "F",
           explanation := q.explanation })
    else if sec.1 = pstr "multiple_choice" then
      (acc.1 ++ [{ id := q.id, qtype := pstr "mc", text := q.question,
                   choices := q.options.enum.map (fun io =>
                     pstr "(" ++ ansLetter io.1 ++ pstr ") " ++ io.2),
                   code := q.code }],
       dictSet acc.2 q.id
         { id := q.id, answer := ansLetter q.answerIdx,
           explanation := q.explanation })
    else if sec.1 = pstr "short_answer" then
      (acc.1 ++ [{ id := q.id, qtype := pstr "sa", text := q.question,
                   choices := [], code := none }],
       dictSet acc.2 q.id
         { id := q.id, answer := q.model_answer, explanation := pstr "" })
    else acc) acc

/-- The question/answer-key/metadata construction of parse_json_quiz
for the selected quiz. -/
def buildQuiz (quiz : JQuiz) :
    List Question × List (Str × AnswerKeyEntry) × (Str × Str × Str) :=
  let qa := quiz.sections.foldl buildFromSection ([], [])
  (qa.1, qa.2, (quiz.id.getD (pstr ""), quiz.title, quiz.scope))

/-- Python truthiness of the optional quiz_id argument: None and the
empty string are falsy. -/
def isTruthy (o : Option Str) : Bool :=
  match o with
  | none => false
  | some s => s ≠ []

/-- The available-ids list of the error messages:
q.get("id", "?") over all quizzes. -/
def availableIds (quizzes : List JQuiz) : List Str :=
  quizzes.map (fun q => q.id.getD (pstr "?"))

/-- Selection when no (truthy) quiz_id is given: the single quiz, or
the ambiguity error listing available ids. -/
def selectDefault (quizzes : List JQuiz) : Except QuizError JQuiz :=
  match quizzes with
  | [q] => .ok q
  | _ => .error (.multipleQuizzes (availableIds quizzes))

/-- The quiz-selection logic of parse_json_quiz: no quizzes is an error;
a truthy quiz_id selects the first quiz whose id equals it (a missing
id never matches), failing with the ids-listing error when absent;
otherwise the single quiz is used or the ambiguity error is raised. -/
def selectQuiz (quizzes : List JQuiz) (quiz_id : Option Str) :
    Except QuizError JQuiz :=
  if quizzes = [] then .error .noQuizzes
  else
    match quiz_id with
    | some qid =>
      if qid ≠ [] then
        match quizzes.find? (fun q => match q.id with
          | some s => decide (s = qid)
          | none => false) with
        | some quiz => .ok quiz
        | none => .error (.notFound qid (availableIds quizzes))
      else selectDefault quizzes
    | none => selectDefault quizzes

/-- parse_json_quiz of backend/quiz_processor.py over the typed model
of the Apollo JSON format. -/
def parse_json_quiz (data : JFile) (quiz_id : Option Str) :
    Except QuizError
      (List Question × List (Str × AnswerKeyEntry) × (Str × Str × Str)) :=
  (selectQuiz data.quizzes quiz_id).map buildQuiz

end QP

/-! Concrete inputs and spec-side helpers for the quiz-engine claims. -/

/-- Concrete true/false question for the grading witness. -/
def wtfq : QP.Question :=
  { id := pstr "TF-1", qtype := pstr "tf", text := pstr "x",
    choices := [], code := none }

/-- Concrete answer key for the grading witness. -/
def wtfkey : List (Str × QP.AnswerKeyEntry) :=
  [(pstr "TF-1", { id := pstr "TF-1", answer := pstr "T", explanation := [] })]

/-- Benchmark result of config A on a ten-question quiz (8 correct). -/
def exResultA1 : QP.BenchmarkResult :=
  { label := pstr "A", mode := pstr "m", use_rag := false, grounded := false,
    total := 10, correct := 8, incorrect := 2, ungraded := 0,
    accuracy := 4 / 5, elapsed := 0, graded := [] }

/-- Benchmark result of config A on a four-question quiz (1 correct). -/
def exResultA2 : QP.BenchmarkResult :=
  { label := pstr "A", mode := pstr "m", use_rag := false, grounded := false,
    total := 4, correct := 1, incorrect := 3, ungraded := 0,
    accuracy := 1 / 4, elapsed := 0, graded := [] }

/-- Two-quiz benchmark summaries whose aggregate accuracy differs from
the average of the per-quiz accuracies. -/
def exSummaries : List QP.QuizBenchmarkSummary :=
  [{ quiz_title := pstr "q1", quiz_path := pstr "p1", results := [exResultA1] },
   { quiz_title := pstr "q2", quiz_path := pstr "p2", results := [exResultA2] }]

/-- The aggregation entry _aggregate_by_config builds for config A from
exSummaries: counts summed over both quizzes, accuracy 9/14 recomputed
from the summed counts. -/
def exAggA : QP.AggEntry :=
  { total := 14, correct := 9, incorrect := 5, ungraded := 0,
    elapsed := 0, quiz_accuracies := [(pstr "q1", 4 / 5), (pstr "q2", 1 / 4)],
    accuracy := 9 / 14 }

/-- The (quiz title, result) pairs visited by the aggregation loops, in
order. -/
def flatResults (summaries : List QP.QuizBenchmarkSummary) :
    List (Str × QP.BenchmarkResult) :=
  (summaries.map (fun s => s.results.map (fun r => (s.quiz_title, r)))).flatten

/-- Sum of a result field over every result carrying the label, across
all quizzes. -/
def sumOver (summaries : List QP.QuizBenchmarkSummary) (label : Str)
    (f : QP.BenchmarkResult → Nat) : Nat :=
  (((flatResults summaries).filter (fun tr => tr.2.label = label)).map
    (fun tr => f tr.2)).sum

/-- All the += updates a label's entry receives from a result list. -/
def bumpAll (e : QP.AggEntry) (rs : List (Str × QP.BenchmarkResult))
    (label : Str) : QP.AggEntry :=
  (rs.filter (fun tr => tr.2.label = label)).foldl
    (fun acc tr => QP.bump acc tr.1 tr.2) e

/-- A question bank of four tf, three mc and three sa questions, for
the filter witness. -/
def wqbank : List QP.Question :=
  [{ id := pstr "TF-1", qtype := pstr "tf", text := [], choices := [], code := none },
   { id := pstr "MC-1", qtype := pstr "mc", text := [], choices := [], code := none },
   { id := pstr "SA-1", qtype := pstr "sa", text := [], choices := [], code := none },
   { id := pstr "TF-2", qtype := pstr "tf", text := [], choices := [], code := none },
   { id := pstr "MC-2", qtype := pstr "mc", text := [], choices := [], code := none },
   { id := pstr "SA-2", qtype := pstr "sa", text := [], choices := [], code := none },
   { id := pstr "TF-3", qtype := pstr "tf", text := [], choices := [], code := none },
   { id := pstr "MC-3", qtype := pstr "mc", text := [], choices := [], code := none },
   { id := pstr "SA-3", qtype := pstr "sa", text := [], choices := [], code := none },
   { id := pstr "TF-4", qtype := pstr "tf", text := [], choices := [], code := none }]

/-- A single tf question, used to refute claim C6 at the empty type
set. -/
def cexFilterQ : QP.Question :=
  { id := pstr "TF-1", qtype := pstr "tf", text := pstr "q",
    choices := [], code := none }

/-- A quiz file with one quiz holding one five-option multiple-choice
question whose answer index is 0, used to refute the parenthetical of
claim C10. -/
def cexJQuestion : QP.JQuestion :=
  { id := pstr "MC-1", question := pstr "q",
    options := [pstr "o1", pstr "o2", pstr "o3", pstr "o4", pstr "o5"],
    answerBool := false, answerIdx := 0,
    model_answer := [], explanation := [], code := none }

/-- The quiz wrapping cexJQuestion. -/
def cexJQuiz : QP.JQuiz :=
  { id := some (pstr "qz"), title := pstr "t", scope := pstr "s",
    sections := [(pstr "multiple_choice", [cexJQuestion])] }

/-- The file wrapping cexJQuiz. -/
def cexJFile : QP.JFile := { quizzes := [cexJQuiz] }

/-- Concrete mc question whose key letter is beyond d, for the C10
witness. -/
def wmcq : QP.Question :=
  { id := pstr "MC-9", qtype := pstr "mc", text := pstr "x",
    choices := [], code := none }

/-- Answer key giving wmcq the letter e. -/
def wmckey : List (Str × QP.AnswerKeyEntry) :=
  [(pstr "MC-9", { id := pstr "MC-9", answer := pstr "e", explanation := [] })]

/-- A quiz file with two quizzes, for the C8 witness. -/
def wjquiz1 : QP.JQuiz :=
  { id := some (pstr "q1"), title := pstr "t1", scope := [], sections := [] }

/-- Second quiz of the C8 witness file. -/
def wjquiz2 : QP.JQuiz :=
  { id := some (pstr "q2"), title := pstr "t2", scope := [], sections := [] }

/-- A quiz file with two quizzes, for the C8 witness. -/
def wjfile2 : QP.JFile := { quizzes := [wjquiz1, wjquiz2] }

/-- Case analysis on an optional aggregation entry, used to phrase
lookup lemmas about the aggregation fold. -/
def optCase (o : Option QP.AggEntry) (f : QP.AggEntry → Option QP.AggEntry)
    (d : Option QP.AggEntry) : Option QP.AggEntry :=
  match o with
  | some e => f e
  | none => d

/-! Basic lemmas about the string-splitting primitives. -/

theorem splitOnPred_ne_nil (p : Char → Bool) : ∀ s, splitOnPred p s ≠ []
  | [] => by simp [splitOnPred]
  | c :: rest => by
    simp only [splitOnPred]
    split
    · simp
    · cases h : splitOnPred p rest <;> simp [consHead]

theorem consHead_append (c : Char) (l m : List Str) (h : l ≠ []) :
    consHead c (l ++ m) = consHead c l ++ m := by
  cases l with
  | nil => exact absurd rfl h
  | cons x xs => simp [consHead]

theorem splitOnPred_glue (p : Char → Bool) {c : Char} (hc : p c = true) :
    ∀ a b, splitOnPred p (a ++ c :: b) = splitOnPred p a ++ splitOnPred p b
  | [], b => by simp [splitOnPred, hc]
  | x :: a, b => by
    cases hx : p x with
    | true =>
      simp [splitOnPred, hx, splitOnPred_glue p hc a b]
    | false =>
      simp only [List.cons_append, splitOnPred, List.append_eq, hx,
        Bool.false_eq_true, if_false]
      rw [splitOnPred_glue p hc a b,
        consHead_append x _ _ (splitOnPred_ne_nil p a)]

theorem splitOnPred_sep_free (p : Char → Bool) :
    ∀ s, ∀ t ∈ splitOnPred p s, ∀ c ∈ t, p c = false := by
  intro s
  induction s with
  | nil =>
    intro t ht c hc
    simp [splitOnPred] at ht; subst ht; simp at hc
  | cons x rest ih =>
    intro t ht c hc
    by_cases hx : p x = true
    · simp only [splitOnPred, hx, if_true] at ht
      rcases List.mem_cons.mp ht with h | h
      · subst h; simp at hc
      · exact ih t h c hc
    · have hx' : p x = false := by simpa using hx
      simp only [splitOnPred, hx', Bool.false_eq_true, if_false] at ht
      rcases hrest : splitOnPred p rest with _ | ⟨h0, t0⟩
      · exact absurd hrest (splitOnPred_ne_nil p rest)
      · rw [hrest] at ht
        simp only [consHead] at ht
        rcases List.mem_cons.mp ht with h | h
        · subst h
          rcases List.mem_cons.mp hc with h | h
          · subst h; exact hx'
          · exact ih h0 (by simp [hrest]) c h
        · exact ih t (by simp [hrest, h]) c hc

theorem splitOnPred_all_keep (p : Char → Bool) :
    ∀ s, (∀ c ∈ s, p c = false) → splitOnPred p s = [s]
  | [], _ => by simp [splitOnPred]
  | x :: rest, h => by
    have hx : p x = false := h x (by simp)
    simp only [splitOnPred, hx, Bool.false_eq_true, if_false]
    rw [splitOnPred_all_keep p rest (fun c hc => h c (by simp [hc]))]
    simp [consHead]

theorem pySplitWs_nil : pySplitWs [] = [] := rfl

theorem pySplitWs_glue {c : Char} (hc : isPyWs c = true) (a b : Str) :
    pySplitWs (a ++ c :: b) = pySplitWs a ++ pySplitWs b := by
  unfold pySplitWs
  rw [splitOnPred_glue isPyWs hc a b, List.filter_append]

theorem pySplitWs_cons_ws {c : Char} (hc : isPyWs c = true) (s : Str) :
    pySplitWs (c :: s) = pySplitWs s := by
  have := pySplitWs_glue hc [] s
  simpa using this

theorem pySplitWs_all_ws : ∀ s : Str, (∀ c ∈ s, isPyWs c = true) → pySplitWs s = []
  | [], _ => rfl
  | c :: rest, h => by
    rw [pySplitWs_cons_ws (h c (by simp))]
    exact pySplitWs_all_ws rest (fun x hx => h x (by simp [hx]))

theorem pySplitWs_append_ws_right {t : Str} (ht : ∀ c ∈ t, isPyWs c = true) (s : Str) :
    pySplitWs (s ++ t) = pySplitWs s := by
  cases t with
  | nil => simp
  | cons c t' =>
    rw [pySplitWs_glue (ht c (by simp)) s t',
      pySplitWs_all_ws t' (fun x hx => ht x (by simp [hx]))]
    simp

theorem pySplitWs_append_ws_left {t : Str} (ht : ∀ c ∈ t, isPyWs c = true) (s : Str) :
    pySplitWs (t ++ s) = pySplitWs s := by
  induction t with
  | nil => simp
  | cons c t' ih =>
    rw [List.cons_append, pySplitWs_cons_ws (ht c (by simp))]
    exact ih (fun x hx => ht x (by simp [hx]))

theorem pySplitWs_token {s w : Str} (hw : w ∈ pySplitWs s) :
    w ≠ [] ∧ ∀ c ∈ w, isPyWs c = false := by
  unfold pySplitWs at hw
  have h1 := List.of_mem_filter hw
  have h2 := List.mem_of_mem_filter hw
  refine ⟨by simpa using h1, splitOnPred_sep_free isPyWs s w h2⟩

theorem pySplitWs_single {w : Str} (h0 : w ≠ []) (h : ∀ c ∈ w, isPyWs c = false) :
    pySplitWs w = [w] := by
  unfold pySplitWs
  rw [splitOnPred_all_keep isPyWs w h]
  simp [h0]

theorem pyStrip_words (s : Str) : pySplitWs (pyStrip s) = pySplitWs s := by
  unfold pyStrip
  have hleft : pySplitWs (s.dropWhile isPyWs) = pySplitWs s := by
    conv_rhs => rw [← List.takeWhile_append_dropWhile (p := isPyWs) (l := s)]
    exact (pySplitWs_append_ws_left
      (fun c hc => List.mem_takeWhile_imp hc) _).symm
  set u := s.dropWhile isPyWs with hu
  have hsplit : u = (u.reverse.dropWhile isPyWs).reverse
      ++ (u.reverse.takeWhile isPyWs).reverse := by
    conv_lhs => rw [← List.reverse_reverse u,
      ← List.takeWhile_append_dropWhile (p := isPyWs) (l := u.reverse)]
    rw [List.reverse_append]
  rw [← hleft]
  conv_rhs => rw [hsplit]
  rw [pySplitWs_append_ws_right
    (fun c hc => List.mem_takeWhile_imp (List.mem_reverse.mp hc))]

theorem splitNN_ne_nil : ∀ s, splitNN s ≠ [] := by
  intro s
  induction s using splitNN.induct with
  | case1 => simp [splitNN]
  | case2 rest ih => simp [splitNN]
  | case3 c rest h ih =>
    simp only [splitNN]
    cases splitNN rest <;> simp [consHead]

theorem joinSep_cons_of_ne_nil (sep x : Str) {xs : List Str} (h : xs ≠ []) :
    joinSep sep (x :: xs) = x ++ sep ++ joinSep sep xs := by
  cases xs with
  | nil => exact absurd rfl h
  | cons y ys => rfl

theorem joinSep_splitNN : ∀ s, joinSep (pstr "\n\n") (splitNN s) = s := by
  intro s
  induction s using splitNN.induct with
  | case1 => rfl
  | case2 rest ih =>
    rw [splitNN, joinSep_cons_of_ne_nil _ _ (splitNN_ne_nil rest), ih]
    rfl
  | case3 c rest h ih =>
    have heq : splitNN (c :: rest) = consHead c (splitNN rest) := by
      rw [splitNN]
      exact h
    rw [heq]
    rcases hrest : splitNN rest with _ | ⟨h0, t0⟩
    · exact absurd hrest (splitNN_ne_nil rest)
    · rw [hrest] at ih
      simp only [consHead]
      cases t0 with
      | nil => simpa [joinSep] using congrArg (c :: ·) ih
      | cons z zs =>
        rw [joinSep_cons_of_ne_nil _ _ (by simp)] at ih ⊢
        simpa using congrArg (c :: ·) ih

theorem pstrNN : pstr "\n\n" = ['\n', '\n'] := rfl

theorem words_joinNN : ∀ ps : List Str, ps ≠ [] →
    pySplitWs (joinSep (pstr "\n\n") ps) = (ps.map pySplitWs).flatten := by
  intro ps
  induction ps with
  | nil => intro h; exact absurd rfl h
  | cons x xs ih =>
    intro _
    cases xs with
    | nil => simp [joinSep]
    | cons y ys =>
      rw [joinSep_cons_of_ne_nil _ _ (by simp)]
      have hassoc : x ++ pstr "\n\n" ++ joinSep (pstr "\n\n") (y :: ys)
          = x ++ '\n' :: '\n' :: joinSep (pstr "\n\n") (y :: ys) := by
        rw [pstrNN]; simp
      rw [hassoc, pySplitWs_glue (by decide) x _, pySplitWs_cons_ws (by decide),
        ih (by simp)]
      simp

theorem words_splitNN (s : Str) :
    pySplitWs s = ((splitNN s).map pySplitWs).flatten := by
  conv_lhs => rw [← joinSep_splitNN s]
  exact words_joinNN _ (splitNN_ne_nil s)

theorem wordFold_inv (max_size : Nat) :
    ∀ (wl : List Str) (raws : List Str) (temp : Str),
      (∀ w ∈ wl, w ≠ [] ∧ ∀ c ∈ w, isPyWs c = false) →
      (∀ c ∈ raws, GoodChunk max_size c) →
      (temp = [] ∨ GoodChunk max_size temp) →
      (∀ c ∈ (wl.foldl (MC.wordStep max_size) (raws, temp)).1, GoodChunk max_size c)
      ∧ ((wl.foldl (MC.wordStep max_size) (raws, temp)).2 = [] ∨
          GoodChunk max_size (wl.foldl (MC.wordStep max_size) (raws, temp)).2)
      ∧ (((wl.foldl (MC.wordStep max_size) (raws, temp)).1.map pySplitWs).flatten
           ++ pySplitWs (wl.foldl (MC.wordStep max_size) (raws, temp)).2
         = (raws.map pySplitWs).flatten ++ pySplitWs temp ++ wl) := by
  intro wl
  induction wl with
  | nil =>
    intro raws temp hwl hr ht
    refine ⟨hr, ht, by simp⟩
  | cons w wl ih =>
    intro raws temp hwl hr ht
    obtain ⟨hw0, hwc⟩ := hwl w (by simp)
    have hwl' : ∀ x ∈ wl, x ≠ [] ∧ ∀ c ∈ x, isPyWs c = false :=
      fun x hx => hwl x (by simp [hx])
    have hwsingle : pySplitWs w = [w] := pySplitWs_single hw0 hwc
    rw [List.foldl_cons]
    by_cases hfit : temp.length + w.length + 1 ≤ max_size
    · by_cases htemp : temp = []
      · have hstep : MC.wordStep max_size (raws, temp) w = (raws, w) := by
          simp [MC.wordStep, hfit, htemp]
        rw [hstep]
        obtain ⟨a, b, c⟩ := ih raws w hwl' hr (Or.inr (Or.inr hwc))
        refine ⟨a, b, ?_⟩
        rw [c, htemp, hwsingle]
        simp [pySplitWs_nil]
      · have hstep : MC.wordStep max_size (raws, temp) w
            = (raws, temp ++ ' ' :: w) := by
          simp [MC.wordStep, hfit, htemp]
        rw [hstep]
        have hgood : GoodChunk max_size (temp ++ ' ' :: w) :=
          Or.inl (by simp; omega)
        obtain ⟨a, b, c⟩ := ih raws (temp ++ ' ' :: w) hwl' hr (Or.inr hgood)
        refine ⟨a, b, ?_⟩
        rw [c, pySplitWs_glue (by decide) temp w, hwsingle]
        simp
    · by_cases htemp : temp = []
      · have hstep : MC.wordStep max_size (raws, temp) w = (raws, w) := by
          simp [MC.wordStep, hfit, htemp]
        rw [hstep]
        obtain ⟨a, b, c⟩ := ih raws w hwl' hr (Or.inr (Or.inr hwc))
        refine ⟨a, b, ?_⟩
        rw [c, htemp, hwsingle]
        simp [pySplitWs_nil]
      · have hstep : MC.wordStep max_size (raws, temp) w
            = (raws ++ [temp], w) := by
          simp [MC.wordStep, hfit, htemp]
        rw [hstep]
        have htg : GoodChunk max_size temp := ht.resolve_left htemp
        have hr' : ∀ c ∈ raws ++ [temp], GoodChunk max_size c := by
          intro c hc
          rcases List.mem_append.mp hc with h | h
          · exact hr c h
          · simp at h; subst h; exact htg
        obtain ⟨a, b, c⟩ := ih (raws ++ [temp]) w hwl' hr' (Or.inr (Or.inr hwc))
        refine ⟨a, b, ?_⟩
        rw [c, hwsingle]
        simp

theorem paraFold_inv (max_size : Nat) :
    ∀ (ps : List Str) (raws : List Str) (current : Str),
      (∀ c ∈ raws, GoodChunk max_size c) →
      (current = [] ∨ GoodChunk max_size current) →
      (∀ c ∈ (ps.foldl (MC.paraStep max_size) (raws, current)).1, GoodChunk max_size c)
      ∧ ((ps.foldl (MC.paraStep max_size) (raws, current)).2 = [] ∨
          GoodChunk max_size (ps.foldl (MC.paraStep max_size) (raws, current)).2)
      ∧ (((ps.foldl (MC.paraStep max_size) (raws, current)).1.map pySplitWs).flatten
           ++ pySplitWs (ps.foldl (MC.paraStep max_size) (raws, current)).2
         = (raws.map pySplitWs).flatten ++ pySplitWs current
             ++ (ps.map pySplitWs).flatten) := by
  intro ps
  induction ps with
  | nil =>
    intro raws current hr hc
    refine ⟨hr, hc, by simp⟩
  | cons p0 ps ih =>
    intro raws current hr hc
    rw [List.foldl_cons]
    have hwords : pySplitWs (pyStrip p0) = pySplitWs p0 := pyStrip_words p0
    by_cases hempty : pyStrip p0 = []
    · have hstep : MC.paraStep max_size (raws, current) p0 = (raws, current) := by
        simp [MC.paraStep, hempty]
      rw [hstep]
      obtain ⟨a, b, c⟩ := ih raws current hr hc
      refine ⟨a, b, ?_⟩
      have h0 : pySplitWs p0 = [] := by rw [← hwords, hempty, pySplitWs_nil]
      rw [c]
      simp [h0]
    · by_cases hfit : current.length + (pyStrip p0).length + 2 ≤ max_size
      · by_cases hcur : current = []
        · have hfit2 : (pyStrip p0).length + 2 ≤ max_size := by
            simpa [hcur] using hfit
          have hstep : MC.paraStep max_size (raws, current) p0 = (raws, pyStrip p0) := by
            simp [MC.paraStep, hempty, hfit2, hcur]
          rw [hstep]
          have hgood : GoodChunk max_size (pyStrip p0) := Or.inl (by omega)
          obtain ⟨a, b, c⟩ := ih raws (pyStrip p0) hr (Or.inr hgood)
          refine ⟨a, b, ?_⟩
          rw [c, hwords, hcur, pySplitWs_nil]
          simp
        · have hstep : MC.paraStep max_size (raws, current) p0
              = (raws, current ++ '\n' :: '\n' :: pyStrip p0) := by
            simp only [MC.paraStep, hempty, if_neg, hfit, if_pos, hcur]
            simp [pstrNN]
          rw [hstep]
          have hgood : GoodChunk max_size (current ++ '\n' :: '\n' :: pyStrip p0) :=
            Or.inl (by simp; omega)
          obtain ⟨a, b, c⟩ := ih raws _ hr (Or.inr hgood)
          refine ⟨a, b, ?_⟩
          rw [c, pySplitWs_glue (by decide) current _, pySplitWs_cons_ws (by decide),
            hwords]
          simp
      · have hraws1 : ∀ c ∈ (if current = [] then raws else raws ++ [current]),
            GoodChunk max_size c := by
          by_cases hcur : current = []
          · simpa [hcur] using hr
          · simp only [hcur, if_neg, if_false]
            intro c hcm
            rcases List.mem_append.mp hcm with h | h
            · exact hr c h
            · simp at h; subst h; exact hc.resolve_left hcur
        have hflat1 : ((if current = [] then raws else raws ++ [current]).map
              pySplitWs).flatten
            = (raws.map pySplitWs).flatten ++ pySplitWs current := by
          by_cases hcur : current = []
          · simp [hcur, pySplitWs_nil]
          · simp [hcur]
        by_cases hbig : (pyStrip p0).length > max_size
        · have hstep : MC.paraStep max_size (raws, current) p0
              = (pySplitWs (pyStrip p0)).foldl (MC.wordStep max_size)
                  ((if current = [] then raws else raws ++ [current]), []) := by
            simp [MC.paraStep, hempty, hfit, hbig]
          rw [hstep]
          obtain ⟨a, b, c⟩ := wordFold_inv max_size (pySplitWs (pyStrip p0)) _ []
            (fun w hw => pySplitWs_token hw) hraws1 (Or.inl rfl)
          set mid := (pySplitWs (pyStrip p0)).foldl (MC.wordStep max_size)
            ((if current = [] then raws else raws ++ [current]), []) with hmid
          obtain ⟨a2, b2, c2⟩ := ih mid.1 mid.2 a b
          refine ⟨a2, b2, ?_⟩
          rw [c2, c, hflat1, pySplitWs_nil, hwords]
          simp
        · have hstep : MC.paraStep max_size (raws, current) p0
              = ((if current = [] then raws else raws ++ [current]), pyStrip p0) := by
            simp [MC.paraStep, hempty, hfit, hbig]
          rw [hstep]
          have hgood : GoodChunk max_size (pyStrip p0) := Or.inl (by omega)
          obtain ⟨a, b, c⟩ := ih _ (pyStrip p0) hraws1 (Or.inr hgood)
          refine ⟨a, b, ?_⟩
          rw [c, hflat1, hwords]
          simp

/-- Claim C1 (amended): every raw chunk accumulated by chunk_section is
at most max_size characters long or consists of a single word containing
no whitespace at all (a word that alone exceeds max_size), and the
whitespace-delimited words of the raw chunks, in order, are exactly the
words of the section body: no word is ever split across chunks or lost. -/
theorem c1_raw_chunks_bounded (body : Str) (max_size : Nat) :
    (∀ c ∈ MC.rawChunks body max_size,
        c.length ≤ max_size ∨ ∀ ch ∈ c, isPyWs ch = false)
    ∧ ((MC.rawChunks body max_size).map pySplitWs).flatten = pySplitWs body := by
  obtain ⟨a, b, c⟩ := paraFold_inv max_size (splitNN body) [] [] (by simp) (Or.inl rfl)
  have hw : ((splitNN body).map pySplitWs).flatten = pySplitWs body :=
    (words_splitNN body).symm
  unfold MC.rawChunks
  set r := (splitNN body).foldl (MC.paraStep max_size) ([], []) with hrdef
  by_cases h2 : r.2 = []
  · simp only [h2, if_pos]
    refine ⟨a, ?_⟩
    rw [h2, pySplitWs_nil, List.append_nil] at c
    rw [c]
    simpa using hw
  · simp only [h2, if_neg, if_false]
    constructor
    · intro ch hch
      rcases List.mem_append.mp hch with h | h
      · exact a ch h
      · simp at h; subst h; exact b.resolve_left h2
    · rw [List.map_append, List.flatten_append]
      simp only [List.map_cons, List.map_nil, List.flatten_cons, List.flatten_nil,
        List.append_nil]
      rw [c]
      simpa using hw

/-- Claim C1 witness: the first raw chunk of a concrete two-paragraph
body satisfies the bound. -/
theorem c1_raw_chunks_bounded_witness :
    (pstr "aaaa aaaa").length ≤ 10
      ∨ ∀ ch ∈ pstr "aaaa aaaa", isPyWs ch = false :=
  (c1_raw_chunks_bounded (pstr "aaaa aaaa\n\nbbbb bbbb") 10).1
    (pstr "aaaa aaaa") (by decide)

/-- Claim C1 as stated is false: chunk_section returns chunks with the
overlap prefix attached, so a returned chunk can exceed max_size even
though no single word of the section body does. -/
theorem c1_claim_counterexample :
    ¬ (∀ c ∈ MC.chunk_section cexC1sec 10 5,
        c.length ≤ 10 ∨ ∃ w ∈ pySplitWs cexC1sec.body, 10 < w.length) := by
  decide

theorem applyOverlapAux_eq (ov : Nat) :
    ∀ (l : List Str) (prev : Str),
      MC.applyOverlapAux ov prev l
        = (List.range l.length).map (fun i =>
            pstr "[...] " ++ snapTail (pySliceNeg ov ((prev :: l).getD i []))
              ++ pstr "\n\n" ++ l.getD i []) := by
  intro l
  induction l with
  | nil => intro prev; simp [MC.applyOverlapAux]
  | cons x xs ih =>
    intro prev
    rw [MC.applyOverlapAux, List.length_cons, List.range_succ_eq_map,
      List.map_cons, List.map_map]
    congr 1
    rw [ih x]
    apply List.map_congr_left
    intro i hi
    simp [List.getD_cons_succ]

/-- Claim C2 (amended): chunk_section sec max_size overlap equals the
list built from the raw chunks of sec.body where the first chunk is the
heading line (absent for the untitled Introduction) plus the first raw
chunk, and the (i+1)-st chunk is "[...] " plus the tail of the i-th raw
chunk plus a blank line plus the (i+1)-st raw chunk; the tail is the
last overlap characters of the i-th raw chunk (the whole chunk when
overlap = 0, by Python slice semantics), advanced past its first space
character, and is drawn only from that raw chunk of the same call. -/
theorem c2_overlap_form (sec : MC.MarkdownSection) (max_size overlap : Nat) :
    MC.chunk_section sec max_size overlap = specChunkForm sec max_size overlap := by
  unfold MC.chunk_section specChunkForm
  by_cases hb : pyStrip sec.body = []
  · simp [hb]
  · simp only [hb, if_neg, if_false]
    rcases hraws : MC.rawChunks sec.body max_size with _ | ⟨r0, rest⟩
    · simp
    · show ((if sec.heading ≠ [] then sec.heading ++ pstr "\n\n" else []) ++ r0)
          :: MC.applyOverlapAux overlap r0 rest = _
      rw [List.length_cons, List.range_succ_eq_map, List.map_cons]
      congr 1
      rw [applyOverlapAux_eq, List.map_map]
      apply List.map_congr_left
      intro i hi
      simp [List.getD_cons_succ]

/-- Claim C2 as stated is false: with overlap = 0 the source's slice
prev_text[-overlap:] is the whole previous chunk, not its last zero
characters, and the snap looks only for a space, not for the first
whitespace character. -/
theorem c2_claim_counterexample :
    ¬ (∀ (sec : MC.MarkdownSection) (max_size overlap : Nat) (i : Nat),
        i + 1 < (MC.chunk_section sec max_size overlap).length →
        (MC.chunk_section sec max_size overlap).getD (i + 1) []
          = pstr "[...] "
            ++ snapTailWs (lastChars overlap
                ((MC.rawChunks sec.body max_size).getD i []))
            ++ pstr "\n\n" ++ (MC.rawChunks sec.body max_size).getD (i + 1) []) := by
  intro h
  have hcex := h cexC2sec 6 0 0 (by decide)
  exact absurd hcex (by decide)

theorem parentIdxAux_none (hs : List (Nat × Str)) (L : Nat) :
    ∀ i, parentIdxAux hs L i = none → ∀ m, m < i → L ≤ lvlAt hs m := by
  intro i
  induction i with
  | zero => intro _ m hm; omega
  | succ k ih =>
    intro h m hm
    by_cases hk : lvlAt hs k < L
    · simp [parentIdxAux, hk] at h
    · simp only [parentIdxAux, hk, if_neg, if_false] at h
      rcases Nat.lt_succ_iff_lt_or_eq.mp hm with h2 | h2
      · exact ih h m h2
      · subst h2; omega

theorem parentIdxAux_some (hs : List (Nat × Str)) (L : Nat) :
    ∀ i j, parentIdxAux hs L i = some j →
      j < i ∧ lvlAt hs j < L ∧ ∀ m, j < m → m < i → L ≤ lvlAt hs m := by
  intro i
  induction i with
  | zero => intro j h; simp [parentIdxAux] at h
  | succ k ih =>
    intro j h
    by_cases hk : lvlAt hs k < L
    · simp only [parentIdxAux, hk, if_pos, Option.some.injEq] at h
      subst h
      exact ⟨Nat.lt_succ_self k, hk, fun m h1 h2 => by omega⟩
    · simp only [parentIdxAux, hk, if_neg, if_false] at h
      obtain ⟨a, b, c⟩ := ih j h
      refine ⟨by omega, b, fun m h1 h2 => ?_⟩
      rcases Nat.lt_succ_iff_lt_or_eq.mp h2 with h3 | h3
      · exact c m h1 h3
      · subst h3; omega

theorem parentIdx_lt (hs : List (Nat × Str)) (i j : Nat)
    (h : parentIdx hs i = some j) : j < i :=
  (parentIdxAux_some hs (lvlAt hs i) i j h).1

theorem nearestChainF_of_none (hs : List (Nat × Str)) (i : Nat)
    (h : parentIdx hs i = none) :
    ∀ f, nearestChainF f hs i = [txtAt hs i] := by
  intro f
  cases f with
  | zero => rfl
  | succ g => simp [nearestChainF, h]

theorem nearestChainF_fuel (hs : List (Nat × Str)) :
    ∀ i f g, i ≤ f → i ≤ g → nearestChainF f hs i = nearestChainF g hs i := by
  intro i
  induction i using Nat.strong_induction_on with
  | _ i ih =>
    intro f g hf hg
    rcases hp : parentIdx hs i with _ | j
    · rw [nearestChainF_of_none hs i hp, nearestChainF_of_none hs i hp]
    · have hj : j < i := parentIdx_lt hs i j hp
      have hi1 : 1 ≤ i := by omega
      obtain ⟨f', rfl⟩ : ∃ f', f = f' + 1 := ⟨f - 1, by omega⟩
      obtain ⟨g', rfl⟩ : ∃ g', g = g' + 1 := ⟨g - 1, by omega⟩
      simp only [nearestChainF, hp]
      rw [ih j hj f' g' (by omega) (by omega)]

theorem survB_self (hs : List (Nat × Str)) (k : Nat) : survB hs k k = true := by
  unfold survB
  rw [List.all_eq_true]
  intro j hj
  rw [List.mem_range] at hj
  simp
  omega

theorem survB_succ (hs : List (Nat × Str)) (k i : Nat) (hik : i < k + 1) :
    survB hs (k + 1) i = (survB hs k i && decide (lvlAt hs i < lvlAt hs (k + 1))) := by
  unfold survB
  rw [List.range_succ (n := k + 1), List.all_append]
  have h1 : [k + 1].all (fun j => j ≤ i || lvlAt hs i < lvlAt hs j)
      = decide (lvlAt hs i < lvlAt hs (k + 1)) := by
    have h2 : ¬(k + 1 ≤ i) := by omega
    simp [h2]
  rw [h1]

theorem survivors_parent (hs : List (Nat × Str)) (k : Nat) :
    survivors hs k = (match parentIdx hs k with
      | none => []
      | some m => survivors hs m) ++ [k] := by
  rcases hp : parentIdx hs k with _ | m
  · have hlow : ∀ m, m < k → lvlAt hs k ≤ lvlAt hs m := parentIdxAux_none hs _ k hp
    show survivors hs k = [] ++ [k]
    unfold survivors
    rw [List.range_succ, List.filter_append]
    have h1 : (List.range k).filter (survB hs k) = [] := by
      rw [List.filter_eq_nil_iff]
      intro i hi
      rw [List.mem_range] at hi
      unfold survB
      simp only [List.all_eq_true, not_forall]
      refine ⟨k, by simp [List.mem_range], ?_⟩
      have h2 := hlow i hi
      simp
      omega
    rw [h1]
    simp [survB_self]
  · obtain ⟨hmk, hml, hmax⟩ := parentIdxAux_some hs _ k m hp
    show survivors hs k = survivors hs m ++ [k]
    unfold survivors
    have hsplit : k + 1 = (m + 1) + (k - m) := by omega
    rw [hsplit, List.range_add, List.filter_append]
    have hA : (List.range (m + 1)).filter (survB hs k)
        = (List.range (m + 1)).filter (survB hs m) := by
      apply List.filter_congr
      intro i hi
      rw [List.mem_range] at hi
      have dir1 : survB hs k i = true → survB hs m i = true := by
        intro h
        rw [survB, List.all_eq_true] at h ⊢
        intro j hj
        rw [List.mem_range] at hj
        exact h j (by rw [List.mem_range]; omega)
      have dir2 : survB hs m i = true → survB hs k i = true := by
        intro h
        have hiL : lvlAt hs i < lvlAt hs k := by
          rw [survB, List.all_eq_true] at h
          have hm2 := h m (by rw [List.mem_range]; omega)
          simp at hm2
          rcases hm2 with hc | hc
          · have : i = m := by omega
            subst this; exact hml
          · omega
        rw [survB, List.all_eq_true] at h ⊢
        intro j hj
        rw [List.mem_range] at hj
        by_cases hjm : j ≤ m
        · exact h j (by rw [List.mem_range]; omega)
        · simp
          right
          by_cases hjk : j = k
          · subst hjk; exact hiL
          · have := hmax j (by omega) (by omega)
            omega
      cases hk2 : survB hs k i with
      | true => exact (dir1 hk2).symm
      | false =>
        cases hm2 : survB hs m i with
        | true => rw [← hk2, dir2 hm2]
        | false => rfl
    rw [hA]
    have hkm : k - m = (k - m - 1) + 1 := by omega
    have hC : (List.range (k - m)).map (fun x => m + 1 + x)
        = ((List.range (k - m - 1)).map (fun x => m + 1 + x)) ++ [k] := by
      conv_lhs => rw [hkm, List.range_succ]
      rw [List.map_append]
      have hmk2 : m + 1 + (k - m - 1) = k := by omega
      simp [hmk2]
    rw [hC, List.filter_append]
    have hB : ((List.range (k - m - 1)).map (fun x => m + 1 + x)).filter (survB hs k)
        = [] := by
      rw [List.filter_eq_nil_iff]
      intro x hx
      rw [List.mem_map] at hx
      obtain ⟨t, ht, rfl⟩ := hx
      rw [List.mem_range] at ht
      unfold survB
      simp only [List.all_eq_true, not_forall]
      refine ⟨k, by simp [List.mem_range], ?_⟩
      have hL := hmax (m + 1 + t) (by omega) (by omega)
      simp
      omega
    rw [hB]
    simp [survB_self, survivors]

theorem survivors_map_txt (hs : List (Nat × Str)) :
    ∀ k, (survivors hs k).map (txtAt hs) = nearestChain hs k := by
  intro k
  induction k using Nat.strong_induction_on with
  | _ k ih =>
    rcases hp : parentIdx hs k with _ | m
    · rw [survivors_parent hs k, hp]
      show ([] ++ [k]).map (txtAt hs) = nearestChain hs k
      rw [nearestChain, nearestChainF_of_none hs k hp]
      simp
    · have hm : m < k := parentIdx_lt hs k m hp
      rw [survivors_parent hs k, hp]
      show (survivors hs m ++ [k]).map (txtAt hs) = nearestChain hs k
      rw [List.map_append, ih m hm]
      obtain ⟨k', rfl⟩ : ∃ k', k = k' + 1 := ⟨k - 1, by omega⟩
      have hRHS : nearestChain hs (k' + 1)
          = nearestChainF k' hs m ++ [txtAt hs (k' + 1)] := by
        rw [nearestChain]
        simp [nearestChainF, hp]
      rw [hRHS, nearestChainF_fuel hs m k' m (by omega) (le_refl m), ← nearestChain]
      simp

theorem updStack_map (hs : List (Nat × Str)) (k : Nat) :
    MC.updStack ((survivors hs k).map (fun i => (lvlAt hs i, txtAt hs i)))
        (lvlAt hs (k + 1)) (txtAt hs (k + 1))
      = (survivors hs (k + 1)).map (fun i => (lvlAt hs i, txtAt hs i)) := by
  unfold MC.updStack
  rw [List.filter_map]
  have hR : survivors hs (k + 1)
      = (List.range (k + 1)).filter (survB hs (k + 1)) ++ [k + 1] := by
    unfold survivors
    rw [List.range_succ, List.filter_append]
    simp [survB_self]
  have hF : (List.range (k + 1)).filter (survB hs (k + 1))
      = ((List.range (k + 1)).filter (survB hs k)).filter
          (fun i => decide (lvlAt hs i < lvlAt hs (k + 1))) := by
    rw [List.filter_filter]
    apply List.filter_congr
    intro i hi
    rw [List.mem_range] at hi
    rw [survB_succ hs k i hi, Bool.and_comm]
  rw [hR, hF, List.map_append]
  unfold survivors
  rfl

theorem foldStack_eq (hs : List (Nat × Str)) :
    ∀ k, k < hs.length →
      (hs.take (k + 1)).foldl (fun acc h => MC.updStack acc h.1 h.2) []
        = (survivors hs k).map (fun i => (lvlAt hs i, txtAt hs i)) := by
  intro k
  induction k with
  | zero =>
    intro hk
    cases hs with
    | nil => simp at hk
    | cons h0 t =>
      show MC.updStack [] h0.1 h0.2 = _
      simp [MC.updStack, survivors, survB_self, lvlAt, txtAt, List.range_succ]
  | succ k ih =>
    intro hk
    have hk' : k < hs.length := by omega
    have hsome : hs[k + 1]? = some (hs.getD (k + 1) (0, [])) := by
      rw [List.getElem?_eq_getElem hk]
      rw [List.getD_eq_getElem hs (0, []) hk]
    have htake : hs.take (k + 1 + 1) = hs.take (k + 1) ++ [hs.getD (k + 1) (0, [])] := by
      rw [List.take_succ, hsome]
      rfl
    rw [htake, List.foldl_append, ih hk', List.foldl_cons, List.foldl_nil]
    exact updStack_map hs k

theorem buildSections_breadcrumbs (lines : List Str) :
    ∀ (hps : List (Nat × Nat × Str)) (st : List (Nat × Str)),
      (MC.buildSections lines hps st).map (fun s => s.breadcrumb)
        = (List.range hps.length).map (fun k =>
            (((hps.map (fun h => (h.2.1, h.2.2))).take (k + 1)).foldl
                (fun acc h => MC.updStack acc h.1 h.2) st).map Prod.snd) := by
  intro hps
  induction hps with
  | nil => intro st; simp [MC.buildSections]
  | cons h rest ih =>
    intro st
    obtain ⟨ln, lv, tx⟩ := h
    rw [MC.buildSections.eq_def]
    simp only [List.map_cons, List.length_cons, List.range_succ_eq_map, List.map_map]
    congr 1
    rw [ih (MC.updStack st lv tx)]
    apply List.map_congr_left
    intro k hk
    simp [List.take_succ_cons, List.foldl_cons]

theorem headingMatch_pos {line : Str} {lv : Nat} {tx : Str}
    (h : MC.headingMatch line = some (lv, tx)) : 1 ≤ lv := by
  unfold MC.headingMatch at h
  by_cases hcond : (1 ≤ (line.takeWhile (fun c => c = '#')).length
      && (line.takeWhile (fun c => c = '#')).length ≤ 6) = true
  · rw [if_pos hcond] at h
    simp only [Bool.and_eq_true, decide_eq_true_eq] at hcond
    rcases hrest : line.drop (line.takeWhile (fun c => c = '#')).length
        with _ | ⟨c, rest2⟩ <;> rw [hrest] at h
    · simp at h
    · cases rest2 with
      | nil => simp at h
      | cons d rest3 =>
        simp only [] at h
        by_cases hws : isPyWs c = true
        · rw [if_pos hws] at h
          simp only [Option.some.injEq, Prod.mk.injEq] at h
          obtain ⟨h1, _⟩ := h
          omega
        · rw [if_neg hws] at h
          simp at h
  · rw [if_neg hcond] at h
    simp at h

theorem scanHeadings_pos :
    ∀ (lines : List Str) (i : Nat) (inCode : Bool),
      ∀ h ∈ MC.scanHeadings lines i inCode, 1 ≤ h.2.1 := by
  intro lines
  induction lines with
  | nil => intro i inCode h hmem; simp [MC.scanHeadings] at hmem
  | cons line rest ih =>
    intro i inCode h hmem
    rw [MC.scanHeadings] at hmem
    by_cases hf : (pstr "```").isPrefixOf (pyStrip line) = true
    · rw [if_pos hf] at hmem
      exact ih (i + 1) (!inCode) h hmem
    · rw [if_neg hf] at hmem
      by_cases hc : inCode = true
      · rw [if_pos hc] at hmem
        exact ih (i + 1) inCode h hmem
      · rw [if_neg hc] at hmem
        rcases hm : MC.headingMatch line with _ | ⟨lv, tx⟩
        · rw [hm] at hmem
          exact ih (i + 1) inCode h hmem
        · rw [hm] at hmem
          rcases List.mem_cons.mp hmem with h2 | h2
          · subst h2
            exact headingMatch_pos hm
          · exact ih (i + 1) inCode h h2

theorem buildSections_level_pos (lines : List Str) :
    ∀ (hps : List (Nat × Nat × Str)) (st : List (Nat × Str)),
      (∀ h ∈ hps, 1 ≤ h.2.1) →
      ∀ s ∈ MC.buildSections lines hps st, s.heading_level ≠ 0 := by
  intro hps
  induction hps with
  | nil => intro st hpos s hmem; simp [MC.buildSections] at hmem
  | cons h rest ih =>
    intro st hpos s hmem
    obtain ⟨ln, lv, tx⟩ := h
    rw [MC.buildSections.eq_def] at hmem
    simp only [] at hmem
    rcases List.mem_cons.mp hmem with h2 | h2
    · subst h2
      have := hpos (ln, lv, tx) (by simp)
      simp at this ⊢
      omega
    · exact ih (MC.updStack st lv tx) (fun x hx => hpos x (by simp [hx])) s h2

theorem introSection_props (content : Str) :
    ∀ s ∈ MC.introSection content,
      s.heading_level = 0 ∧ s.breadcrumb = [pstr "Introduction"] := by
  intro s hsm
  simp only [MC.introSection] at hsm
  split at hsm
  · simp at hsm
    subst hsm
    exact ⟨rfl, rfl⟩
  · simp at hsm

/-- Claim C3: every section produced by parse_markdown_sections carries
a breadcrumb equal to the chain of nearest enclosing headings: for the
section of heading k, the breadcrumb produced by the level-to-text map
maintenance of the source equals nearestChain, whose element before any
element e is the nearest preceding heading at a level strictly below
the level of e, ending at heading k itself; the synthetic Introduction
section carries the fixed breadcrumb ["Introduction"]. -/
theorem c3_breadcrumbs (content : Str) :
    (((MC.parse_markdown_sections content).filter
        (fun s => s.heading_level ≠ 0)).map (fun s => s.breadcrumb)
      = (List.range (headsOf content).length).map (nearestChain (headsOf content)))
    ∧ ∀ s ∈ MC.parse_markdown_sections content,
        s.heading_level = 0 → s.breadcrumb = [pstr "Introduction"] := by
  constructor
  · rw [MC.parse_markdown_sections, List.filter_append]
    have hintro : (MC.introSection content).filter
        (fun s => s.heading_level ≠ 0) = [] := by
      rw [List.filter_eq_nil_iff]
      intro s hsm
      have := (introSection_props content s hsm).1
      simp [this]
    rw [hintro, List.nil_append]
    have hall : (MC.buildSections (splitNl content)
          (MC.scanHeadings (splitNl content) 0 false) []).filter
        (fun s => s.heading_level ≠ 0)
        = MC.buildSections (splitNl content)
            (MC.scanHeadings (splitNl content) 0 false) [] := by
      rw [List.filter_eq_self]
      intro s hsm
      have := buildSections_level_pos (splitNl content) _ []
        (scanHeadings_pos (splitNl content) 0 false) s hsm
      simp [this]
    rw [hall, buildSections_breadcrumbs]
    have hlen : (MC.scanHeadings (splitNl content) 0 false).length
        = (headsOf content).length := by
      unfold headsOf
      rw [List.length_map]
    rw [hlen]
    apply List.map_congr_left
    intro k hk
    rw [List.mem_range] at hk
    rw [show (MC.scanHeadings (splitNl content) 0 false).map
        (fun h => (h.2.1, h.2.2)) = headsOf content from rfl]
    rw [foldStack_eq (headsOf content) k hk, List.map_map]
    exact survivors_map_txt (headsOf content) k
  · intro s hsm hlvl
    rw [MC.parse_markdown_sections] at hsm
    rcases List.mem_append.mp hsm with h | h
    · exact (introSection_props content s h).2
    · have := buildSections_level_pos (splitNl content) _ []
        (scanHeadings_pos (splitNl content) 0 false) s h
      exact absurd hlvl this

/-- Claim C3 witness: parsing a concrete document with a preamble, the
Introduction section's breadcrumb is the fixed singleton. -/
theorem c3_breadcrumbs_witness :
    ({ heading := [], heading_text := pstr "Introduction", heading_level := 0,
       body := pstr "hello", breadcrumb := [pstr "Introduction"] }
      : MC.MarkdownSection).breadcrumb = [pstr "Introduction"] :=
  (c3_breadcrumbs (pstr "hello\n# A\nbody")).2 _ (by decide) (by decide)

theorem dp_updStack_eq : DP.updStack = MC.updStack := rfl

theorem dp_headingMatch_eq : DP.headingMatch = MC.headingMatch := rfl

theorem dp_scanHeadings_eq : ∀ (lines : List Str) (i : Nat) (inCode : Bool),
    DP.scanHeadings lines i inCode = MC.scanHeadings lines i inCode := by
  intro lines
  induction lines with
  | nil => intro i inCode; rfl
  | cons line rest ih =>
    intro i inCode
    rw [DP.scanHeadings, MC.scanHeadings, dp_headingMatch_eq]
    simp only [ih]

theorem dp_rawChunks_eq : DP.rawChunks = MC.rawChunks := rfl

theorem dp_applyOverlapAux_eq : ∀ (ov : Nat) (prev : Str) (l : List Str),
    DP.applyOverlapAux ov prev l = MC.applyOverlapAux ov prev l := by
  intro ov prev l
  induction l generalizing prev with
  | nil => rfl
  | cons x xs ih => rw [DP.applyOverlapAux, MC.applyOverlapAux, ih]

theorem dp_buildSections_corr (lines : List Str) :
    ∀ (hps : List (Nat × Nat × Str)) (st : List (Nat × Str)),
      (DP.buildSections lines hps st).map DP.secToMC
        = MC.buildSections lines hps st := by
  intro hps
  induction hps with
  | nil => intro st; rfl
  | cons h rest ih =>
    intro st
    obtain ⟨ln, lv, tx⟩ := h
    rw [DP.buildSections.eq_def, MC.buildSections.eq_def]
    simp only [List.map_cons]
    congr 1
    exact ih (DP.updStack st lv tx)

theorem dp_introSection_corr (content : Str) :
    (DP.introSection content).map DP.secToMC = MC.introSection content := by
  simp only [DP.introSection, MC.introSection, dp_scanHeadings_eq,
    apply_ite (List.map DP.secToMC)]
  congr 1

theorem dp_parse_corr (content : Str) :
    (DP.parse_markdown_sections content).map DP.secToMC
      = MC.parse_markdown_sections content := by
  rw [DP.parse_markdown_sections, MC.parse_markdown_sections, List.map_append,
    dp_introSection_corr, dp_buildSections_corr]
  rw [dp_scanHeadings_eq]

theorem dp_chunk_section_corr (s : DP.MarkdownSection) (max_size overlap : Nat) :
    DP.chunk_section s max_size overlap
      = MC.chunk_section (DP.secToMC s) max_size overlap := by
  unfold DP.chunk_section MC.chunk_section
  simp only [DP.secToMC, dp_rawChunks_eq, dp_applyOverlapAux_eq]

/-- Claim C9: the chunk_markdown_file pipeline of
backend/markdown_chunking.py and the copy inside
backend/document_processor.py produce identical results on every input:
the same chunk texts with the same metadata key-value pairs in the same
order. -/
theorem c9_modules_equivalent (content filename file_hash : Str)
    (max_size overlap : Nat) :
    (MC.chunk_markdown_file content filename file_hash max_size overlap).map
        (fun c => (c.text, c.metadata))
      = (DP.chunk_markdown_file content filename file_hash max_size overlap).map
        (fun c => (c.text, c.metadata)) := by
  have hmain : (DP.chunk_markdown_file content filename file_hash max_size overlap).map
      DP.chunkToMC
      = MC.chunk_markdown_file content filename file_hash max_size overlap := by
    rw [DP.chunk_markdown_file, MC.chunk_markdown_file, ← dp_parse_corr content,
      List.enum_map, List.map_flatten, List.map_map, List.map_map]
    congr 1
    apply List.map_congr_left
    intro si _
    show List.map DP.chunkToMC
        ((DP.chunk_section si.2 max_size overlap).enum.map _) = _
    rw [List.map_map, dp_chunk_section_corr]
    rfl
  rw [← hmain, List.map_map]
  rfl

/-- Claim C7: for each canonical output format the prompts request,
extraction returns the expected code: a response starting "True" gives
T, an explicit "The answer is false." gives F, a parenthesized "(b)"
gives b, and a bolded "**(c)**" gives c. -/
theorem c7_extraction_roundtrip :
    QP.extract_answer (pstr "True — because...") (pstr "tf") = pstr "T"
    ∧ QP.extract_answer (pstr "The answer is false.") (pstr "tf") = pstr "F"
    ∧ QP.extract_answer (pstr "(b) — because...") (pstr "mc") = pstr "b"
    ∧ QP.extract_answer (pstr "**(c)**") (pstr "mc") = pstr "c" := by
  decide

/-- Claim C4: grading yields unknown correctness exactly for
short-answer questions or questions without an answer-key entry; the
score is +1 for correct, -1 for incorrect and 0 for unknown; and for tf
and mc questions the extracted answer is compared case-insensitively
against the key entry's canonical code. -/
theorem c4_grading (q : QP.Question) (llm : Str)
    (key : List (Str × QP.AnswerKeyEntry))
    (hq : q.qtype = pstr "tf" ∨ q.qtype = pstr "mc" ∨ q.qtype = pstr "sa") :
    ((QP.grade_question q llm key).is_correct = none
      ↔ (q.qtype = pstr "sa" ∨ QP.dictGet key q.id = none))
    ∧ ((QP.grade_question q llm key).score =
        match (QP.grade_question q llm key).is_correct with
        | some true => 1
        | some false => -1
        | none => 0)
    ∧ (∀ e, QP.dictGet key q.id = some e →
        (q.qtype = pstr "tf" ∨ q.qtype = pstr "mc") →
        (QP.grade_question q llm key).is_correct
          = some (pyUpper (QP.extract_answer llm q.qtype) == pyUpper e.answer)) := by
  rcases hget : QP.dictGet key q.id with _ | e
  · refine ⟨by simp [QP.grade_question, hget],
      by simp [QP.grade_question, hget], ?_⟩
    intro e he
    exact absurd he (by simp)
  · by_cases htm : q.qtype = pstr "tf" ∨ q.qtype = pstr "mc"
    · have hcond : (decide (q.qtype = pstr "tf")
          || decide (q.qtype = pstr "mc")) = true := by
        rcases htm with h | h <;> simp [h]
      refine ⟨?_, ?_, ?_⟩
      · simp only [QP.grade_question, hget, hcond, if_true]
        constructor
        · intro h
          exact absurd h (by simp)
        · intro h
          rcases h with h | h
          · rcases htm with h2 | h2 <;> rw [h] at h2 <;> exact absurd h2 (by decide)
          · exact absurd h (by simp)
      · simp only [QP.grade_question, hget, hcond, if_true]
        cases hic : (pyUpper (QP.extract_answer llm q.qtype) == pyUpper e.answer) with
        | true => simp [hic]
        | false => simp [hic]
      · intro e2 he2 _
        have he3 : e2 = e := by
          injection he2 with h
          exact h.symm
        subst he3
        simp [QP.grade_question, hget, hcond]
    · have hsa : q.qtype = pstr "sa" := by
        rcases hq with h | h | h
        · exact absurd (Or.inl h) htm
        · exact absurd (Or.inr h) htm
        · exact h
      have hcond : (decide (q.qtype = pstr "tf")
          || decide (q.qtype = pstr "mc")) = false := by
        rw [hsa]
        decide
      refine ⟨?_, ?_, ?_⟩
      · simp only [QP.grade_question, hget, hcond, Bool.false_eq_true, if_false]
        simp [hsa]
      · simp [QP.grade_question, hget, hcond]
      · intro e2 he2 hcon
        exact absurd hcon htm

/-- Claim C4 witness: a concrete tf question with key entry T and
answer "True" grades by case-insensitive comparison. -/
theorem c4_grading_witness :
    (QP.grade_question wtfq (pstr "True") wtfkey).is_correct
      = some (pyUpper (QP.extract_answer (pstr "True") wtfq.qtype)
          == pyUpper (pstr "T")) :=
  (c4_grading wtfq (pstr "True") wtfkey (Or.inl rfl)).2.2
    { id := pstr "TF-1", answer := pstr "T", explanation := [] }
    (by decide) (Or.inl rfl)

/-- Claim C6 (amended): with shuffle false and a NON-EMPTY type set,
filter_questions keeps exactly the questions whose qtype is in the set,
in their original order (the result is a sublist of the input),
truncated to the first limit elements when a limit is given and smaller
than the remaining count; and the returned answer key is the original
key restricted to exactly the ids present in the returned questions, so
no entry for a filtered-out question is returned. An empty type set is
falsy in the source and disables filtering entirely. -/
theorem c6_filter (qs : List QP.Question)
    (key : List (Str × QP.AnswerKeyEntry))
    (s : List Str) (limit : Option Nat) (hs : s ≠ []) :
    ((QP.filter_questions qs key (some s) limit).1
        = (match limit with
           | none => qs.filter (fun q => q.qtype ∈ s)
           | some n =>
             if n < (qs.filter (fun q => q.qtype ∈ s)).length
             then (qs.filter (fun q => q.qtype ∈ s)).take n
             else qs.filter (fun q => q.qtype ∈ s)))
    ∧ (QP.filter_questions qs key (some s) limit).1.Sublist qs
    ∧ (QP.filter_questions qs key (some s) limit).2
        = key.filter (fun kv =>
            kv.1 ∈ ((QP.filter_questions qs key (some s) limit).1).map
              (fun q => q.id)) := by
  have hfirst : (QP.filter_questions qs key (some s) limit).1
      = (match limit with
         | none => qs.filter (fun q => q.qtype ∈ s)
         | some n =>
           if n < (qs.filter (fun q => q.qtype ∈ s)).length
           then (qs.filter (fun q => q.qtype ∈ s)).take n
           else qs.filter (fun q => q.qtype ∈ s)) := by
    cases limit with
    | none => simp [QP.filter_questions, hs]
    | some n => simp [QP.filter_questions, hs]
  refine ⟨hfirst, ?_, ?_⟩
  · rw [hfirst]
    have hsub : (qs.filter (fun q => q.qtype ∈ s)).Sublist qs :=
      List.filter_sublist qs
    cases limit with
    | none => exact hsub
    | some n =>
      by_cases hn : n < (qs.filter (fun q => q.qtype ∈ s)).length
      · simp only [hn, if_pos]
        exact ((qs.filter (fun q => q.qtype ∈ s)).take_sublist n).trans hsub
      · simp only [hn, if_neg, if_false]
        exact hsub
  · simp [QP.filter_questions, hs]

/-- Claim C6 witness: the ten-question bank filtered to tf with limit 3
keeps the first three tf questions in order. -/
theorem c6_filter_witness :
    (QP.filter_questions wqbank [] (some [pstr "tf"]) (some 3)).1
      = (if 3 < (wqbank.filter (fun q => q.qtype ∈ [pstr "tf"])).length
         then (wqbank.filter (fun q => q.qtype ∈ [pstr "tf"])).take 3
         else wqbank.filter (fun q => q.qtype ∈ [pstr "tf"])) :=
  (c6_filter wqbank [] [pstr "tf"] (some 3) (by decide)).1

/-- Claim C6 as stated is false: with an EMPTY type set the source's
truthiness test skips filtering and keeps every question, where the
claim demands that only questions whose qtype is in the (empty) set are
kept. -/
theorem c6_claim_counterexample :
    ¬ ((QP.filter_questions [cexFilterQ] [] (some []) none).1
        = [cexFilterQ].filter (fun q => q.qtype ∈ ([] : List Str))) := by
  decide

theorem findPred_none_iff (quizzes : List QP.JQuiz) (qid : Str) :
    (quizzes.find? (fun z => match z.id with
      | some s => decide (s = qid)
      | none => false) = none)
      ↔ ∀ q ∈ quizzes, q.id ≠ some qid := by
  rw [List.find?_eq_none]
  constructor
  · intro h q hq heq
    have h2 := h q hq
    rw [heq] at h2
    simp at h2
  · intro h q hq
    rcases hid : q.id with _ | s
    · simp [hid]
    · have h2 := h q hq
      rw [hid] at h2
      simp only [hid]
      simp only [decide_eq_true_eq]
      intro heq
      exact h2 (by rw [heq])

theorem c8_core (quizzes : List QP.JQuiz) (quiz_id : Option Str) :
    (((QP.selectQuiz quizzes quiz_id).map QP.buildQuiz
        = .error (.multipleQuizzes (QP.availableIds quizzes))
      ∨ ∃ qid, quiz_id = some qid
          ∧ (QP.selectQuiz quizzes quiz_id).map QP.buildQuiz
            = .error (.notFound qid (QP.availableIds quizzes)))
      ↔ (quizzes ≠ []
          ∧ ((QP.isTruthy quiz_id = false ∧ 2 ≤ quizzes.length)
             ∨ (∃ qid, quiz_id = some qid ∧ qid ≠ []
                 ∧ ∀ q ∈ quizzes, q.id ≠ some qid))))
    ∧ (∀ q, quizzes = [q] → QP.isTruthy quiz_id = false →
        (QP.selectQuiz quizzes quiz_id).map QP.buildQuiz = .ok (QP.buildQuiz q))
    ∧ (∀ qid q, quiz_id = some qid → qid ≠ [] →
        quizzes.find? (fun z : QP.JQuiz => match z.id with
          | some s => decide (s = qid)
          | none => false) = some q →
        (QP.selectQuiz quizzes quiz_id).map QP.buildQuiz
          = .ok (QP.buildQuiz q)) := by
  by_cases hnil : quizzes = []
  · subst hnil
    refine ⟨?_, ?_, ?_⟩
    · constructor
      · intro h
        rcases h with h | ⟨qid, _, h⟩ <;> simp [QP.selectQuiz, Except.map] at h
      · rintro ⟨h1, -⟩
        exact absurd rfl h1
    · intro q hq
      simp at hq
    · intro qid q _ _ hfind
      simp at hfind
  · rcases htr : QP.isTruthy quiz_id with _ | _
    · have hsel : QP.selectQuiz quizzes quiz_id = QP.selectDefault quizzes := by
        unfold QP.selectQuiz
        rw [if_neg hnil]
        rcases quiz_id with _ | qid
        · rfl
        · have hqe : qid = [] := by simpa [QP.isTruthy] using htr
          subst hqe
          simp
      rcases quizzes with _ | ⟨q0, rest⟩
      · exact absurd rfl hnil
      · cases rest with
        | nil =>
          have hok : (QP.selectQuiz [q0] quiz_id).map QP.buildQuiz
              = .ok (QP.buildQuiz q0) := by
            rw [hsel]
            rfl
          refine ⟨?_, ?_, ?_⟩
          · rw [hok]
            constructor
            · intro h
              rcases h with h | ⟨qid, _, h⟩ <;> simp at h
            · rintro ⟨-, h⟩
              rcases h with ⟨-, hlen⟩ | ⟨qid, heq, hne, -⟩
              · simp at hlen
              · rw [heq] at htr
                simp [QP.isTruthy] at htr
                exact absurd htr hne
          · rintro q hq -
            obtain rfl : q0 = q := by simpa using hq
            exact hok
          · rintro qid q heq hne -
            rw [heq] at htr
            simp [QP.isTruthy] at htr
            exact absurd htr hne
        | cons q1 rest2 =>
          have herr : (QP.selectQuiz (q0 :: q1 :: rest2) quiz_id).map QP.buildQuiz
              = .error (.multipleQuizzes (QP.availableIds (q0 :: q1 :: rest2))) := by
            rw [hsel]
            rfl
          refine ⟨?_, ?_, ?_⟩
          · rw [herr]
            constructor
            · intro _
              refine ⟨by simp, Or.inl ⟨rfl, ?_⟩⟩
              simp
            · intro _
              left
              rfl
          · rintro q hq -
            simp at hq
          · rintro qid q heq hne -
            rw [heq] at htr
            simp [QP.isTruthy] at htr
            exact absurd htr hne
    · obtain ⟨qid, rfl⟩ : ∃ qid, quiz_id = some qid := by
        rcases quiz_id with _ | q2
        · simp [QP.isTruthy] at htr
        · exact ⟨q2, rfl⟩
      have hqe : qid ≠ [] := by simpa [QP.isTruthy] using htr
      have hsel : QP.selectQuiz quizzes (some qid)
          = (match quizzes.find? (fun z : QP.JQuiz => match z.id with
              | some s => decide (s = qid)
              | none => false) with
            | some quiz => Except.ok quiz
            | none => Except.error (QP.QuizError.notFound qid
                (QP.availableIds quizzes))) := by
        unfold QP.selectQuiz
        rw [if_neg hnil]
        simp [hqe]
      rcases hfind : quizzes.find? (fun z : QP.JQuiz => match z.id with
          | some s => decide (s = qid)
          | none => false) with _ | qfound
      · have herr2 : (QP.selectQuiz quizzes (some qid)).map QP.buildQuiz
            = .error (.notFound qid (QP.availableIds quizzes)) := by
          rw [hsel, hfind]
          rfl
        refine ⟨?_, ?_, ?_⟩
        · rw [herr2]
          constructor
          · intro _
            exact ⟨hnil, Or.inr ⟨qid, rfl, hqe,
              (findPred_none_iff quizzes qid).mp hfind⟩⟩
          · intro _
            right
            exact ⟨qid, rfl, rfl⟩
        · rintro q - htr2
          simp at htr2
        · rintro qid2 q heq - hfind2
          obtain rfl : qid2 = qid := by
            injection heq with h2
            exact h2.symm
          rw [hfind] at hfind2
          simp at hfind2
      · have hok2 : (QP.selectQuiz quizzes (some qid)).map QP.buildQuiz
            = .ok (QP.buildQuiz qfound) := by
          rw [hsel, hfind]
          rfl
        have hmem := List.mem_of_find?_eq_some hfind
        have hpred := List.find?_some hfind
        have hfid : qfound.id = some qid := by
          rcases hid : qfound.id with _ | s
          · rw [hid] at hpred
            simp at hpred
          · rw [hid] at hpred
            simp at hpred
            rw [hpred]
        refine ⟨?_, ?_, ?_⟩
        · rw [hok2]
          constructor
          · intro h
            rcases h with h | ⟨_, _, h⟩ <;> simp at h
          · rintro ⟨-, h⟩
            rcases h with ⟨htr2, -⟩ | ⟨qid2, heq, -, hall⟩
            · simp at htr2
            · obtain rfl : qid2 = qid := by
                injection heq with h2
                exact h2.symm
              exact absurd hfid (hall qfound hmem)
        · rintro q - htr2
          simp at htr2
        · rintro qid2 q heq - hfind2
          obtain rfl : qid2 = qid := by
            injection heq with h2
            exact h2.symm
          rw [hfind] at hfind2
          obtain rfl : qfound = q := by
            injection hfind2
          exact hok2

/-- Claim C8: parse_json_quiz fails with an error enumerating the
available quiz ids exactly when the selection is ambiguous (several
quizzes, no truthy quiz_id given) or the given quiz_id is not found
among the quizzes; with a single quiz and no quiz_id, or with a quiz_id
matching a quiz, parsing proceeds on that quiz without error. -/
theorem c8_parse_selection (data : QP.JFile) (quiz_id : Option Str) :
    ((QP.parse_json_quiz data quiz_id
        = .error (.multipleQuizzes (QP.availableIds data.quizzes))
      ∨ ∃ qid, quiz_id = some qid
          ∧ QP.parse_json_quiz data quiz_id
            = .error (.notFound qid (QP.availableIds data.quizzes)))
      ↔ (data.quizzes ≠ []
          ∧ ((QP.isTruthy quiz_id = false ∧ 2 ≤ data.quizzes.length)
             ∨ (∃ qid, quiz_id = some qid ∧ qid ≠ []
                 ∧ ∀ q ∈ data.quizzes, q.id ≠ some qid))))
    ∧ (∀ q, data.quizzes = [q] → QP.isTruthy quiz_id = false →
        QP.parse_json_quiz data quiz_id = .ok (QP.buildQuiz q))
    ∧ (∀ qid q, quiz_id = some qid → qid ≠ [] →
        data.quizzes.find? (fun z : QP.JQuiz => match z.id with
          | some s => decide (s = qid)
          | none => false) = some q →
        QP.parse_json_quiz data quiz_id = .ok (QP.buildQuiz q)) :=
  c8_core data.quizzes quiz_id

/-- Claim C8 witness: a file with two quizzes and no quiz_id fails with
the ambiguity error listing both ids. -/
theorem c8_parse_selection_witness :
    QP.parse_json_quiz wjfile2 none
      = .error (.multipleQuizzes (QP.availableIds wjfile2.quizzes)) := by
  have h := (c8_parse_selection wjfile2 none).1.mpr
    ⟨by decide, Or.inl ⟨rfl, by decide⟩⟩
  rcases h with h | ⟨qid, hq, _⟩
  · exact h
  · simp at hq

theorem optCase_some (e : QP.AggEntry) (f : QP.AggEntry → Option QP.AggEntry)
    (d : Option QP.AggEntry) : optCase (some e) f d = f e := rfl

theorem optCase_none (f : QP.AggEntry → Option QP.AggEntry)
    (d : Option QP.AggEntry) : optCase none f d = d := rfl

theorem dictHas_false_iff (agg : List (Str × QP.AggEntry)) (k : Str) :
    QP.dictHas agg k = false ↔ QP.aggLookup agg k = none := by
  induction agg with
  | nil => simp [QP.dictHas, QP.aggLookup]
  | cons kv rest ih =>
    obtain ⟨k2, v⟩ := kv
    have hany : QP.dictHas ((k2, v) :: rest) k
        = (decide (k2 = k) || QP.dictHas rest k) := rfl
    rw [QP.aggLookup, hany]
    by_cases hk : k2 = k
    · simp [hk]
    · simp [hk, ih]

theorem aggLookup_append (a b : List (Str × QP.AggEntry)) (k : Str) :
    QP.aggLookup (a ++ b) k
      = optCase (QP.aggLookup a k) some (QP.aggLookup b k) := by
  induction a with
  | nil => simp [QP.aggLookup, optCase]
  | cons kv rest ih =>
    obtain ⟨k2, v⟩ := kv
    rw [List.cons_append, QP.aggLookup, QP.aggLookup]
    by_cases hk : k2 = k
    · rw [if_pos hk, if_pos hk, optCase_some]
    · rw [if_neg hk, if_neg hk, ih]

theorem aggLookup_mapUpd (title : Str) (r : QP.BenchmarkResult) (label : Str) :
    ∀ agg : List (Str × QP.AggEntry),
      QP.aggLookup (agg.map (fun kv =>
          if kv.1 = r.label then (kv.1, QP.bump kv.2 title r) else kv)) label
        = (QP.aggLookup agg label).map
            (fun v => if label = r.label then QP.bump v title r else v) := by
  intro agg
  induction agg with
  | nil => rfl
  | cons kv rest ih =>
    obtain ⟨k, v⟩ := kv
    rw [List.map_cons]
    by_cases hkr : k = r.label
    · rw [show (if (k, v).1 = r.label then ((k, v).1, QP.bump (k, v).2 title r)
          else (k, v)) = (k, QP.bump v title r) by rw [if_pos hkr]]
      rw [QP.aggLookup, QP.aggLookup]
      by_cases hkl : k = label
      · have hlr : label = r.label := hkl ▸ hkr
        rw [if_pos hkl, if_pos hkl]
        simp [hlr]
      · rw [if_neg hkl, if_neg hkl, ih]
    · rw [show (if (k, v).1 = r.label then ((k, v).1, QP.bump (k, v).2 title r)
          else (k, v)) = (k, v) by rw [if_neg hkr]]
      rw [QP.aggLookup, QP.aggLookup]
      by_cases hkl : k = label
      · have hlr : ¬(label = r.label) := fun h => hkr (hkl.trans h)
        rw [if_pos hkl, if_pos hkl]
        simp [hlr]
      · rw [if_neg hkl, if_neg hkl, ih]

theorem aggLookup_step (title : Str) (agg : List (Str × QP.AggEntry))
    (r : QP.BenchmarkResult) (label : Str) :
    QP.aggLookup (QP.aggStep title agg r) label
      = if r.label = label
        then some (QP.bump ((QP.aggLookup agg label).getD QP.aggInit) title r)
        else QP.aggLookup agg label := by
  unfold QP.aggStep
  rw [aggLookup_mapUpd]
  by_cases hd : QP.dictHas agg r.label
  · rw [if_pos hd]
    by_cases hrl : r.label = label
    · subst hrl
      rcases hl : QP.aggLookup agg r.label with _ | v
      · rw [← dictHas_false_iff] at hl
        rw [hl] at hd
        simp at hd
      · simp
    · have h2 : ¬(label = r.label) := fun h => hrl h.symm
      rcases hl : QP.aggLookup agg label with _ | v
      · simp [hrl]
      · simp [hrl, h2]
  · have hd2 : QP.dictHas agg r.label = false := by
      cases h : QP.dictHas agg r.label
      · rfl
      · exact absurd h hd
    rw [if_neg hd]
    rw [aggLookup_append]
    by_cases hrl : r.label = label
    · subst hrl
      have hl := (dictHas_false_iff agg r.label).mp hd2
      rw [hl, optCase_none]
      simp [QP.aggLookup]
    · have h2 : ¬(label = r.label) := fun h => hrl h.symm
      rcases hl : QP.aggLookup agg label with _ | v
      · rw [optCase_none]
        simp [QP.aggLookup, hrl]
      · rw [optCase_some]
        simp [hrl, h2]

theorem bumpAll_cons (e : QP.AggEntry) (tr : Str × QP.BenchmarkResult)
    (rest : List (Str × QP.BenchmarkResult)) (label : Str) :
    bumpAll e (tr :: rest) label
      = if tr.2.label = label
        then bumpAll (QP.bump e tr.1 tr.2) rest label
        else bumpAll e rest label := by
  unfold bumpAll
  by_cases h : tr.2.label = label
  · simp [List.filter_cons, h]
  · simp [List.filter_cons, h]

theorem agg_fold_lookup :
    ∀ (rs : List (Str × QP.BenchmarkResult)) (agg : List (Str × QP.AggEntry))
      (label : Str),
      QP.aggLookup (rs.foldl (fun a tr => QP.aggStep tr.1 a tr.2) agg) label
        = optCase (QP.aggLookup agg label)
            (fun e => some (bumpAll e rs label))
            (if rs.any (fun tr => tr.2.label = label)
             then some (bumpAll QP.aggInit rs label)
             else none) := by
  intro rs
  induction rs with
  | nil =>
    intro agg label
    rcases hl : QP.aggLookup agg label with _ | e
    · rw [List.foldl_nil, hl, optCase_none]
      simp
    · rw [List.foldl_nil, hl, optCase_some]
      simp [bumpAll]
  | cons tr rest ih =>
    intro agg label
    rw [List.foldl_cons, ih, aggLookup_step]
    by_cases hm : tr.2.label = label
    · rw [if_pos hm]
      rw [optCase_some]
      rcases hl : QP.aggLookup agg label with _ | e
      · rw [optCase_none]
        have hany : (tr :: rest).any (fun tr => tr.2.label = label) = true := by
          simp [hm]
        rw [if_pos hany, bumpAll_cons, if_pos hm]
        rfl
      · rw [optCase_some, bumpAll_cons, if_pos hm]
        rfl
    · rw [if_neg hm]
      rcases hl : QP.aggLookup agg label with _ | e
      · rw [optCase_none, optCase_none]
        have hany : (tr :: rest).any (fun tr => tr.2.label = label)
            = rest.any (fun tr => tr.2.label = label) := by
          simp [hm]
        rw [hany, bumpAll_cons, if_neg hm]
      · rw [optCase_some, optCase_some, bumpAll_cons, if_neg hm]

theorem nested_eq_flat :
    ∀ (summaries : List QP.QuizBenchmarkSummary) (agg : List (Str × QP.AggEntry)),
      summaries.foldl (fun agg s => s.results.foldl (QP.aggStep s.quiz_title) agg) agg
        = (flatResults summaries).foldl (fun a tr => QP.aggStep tr.1 a tr.2) agg := by
  intro summaries
  induction summaries with
  | nil => intro agg; rfl
  | cons s rest ih =>
    intro agg
    rw [List.foldl_cons]
    rw [ih]
    show _ = (flatResults (s :: rest)).foldl _ agg
    have hflat : flatResults (s :: rest)
        = s.results.map (fun r => (s.quiz_title, r)) ++ flatResults rest := by
      simp [flatResults]
    rw [hflat, List.foldl_append, List.foldl_map]

theorem bump_fold_fields :
    ∀ (l : List (Str × QP.BenchmarkResult)) (e : QP.AggEntry),
      ((l.foldl (fun acc tr => QP.bump acc tr.1 tr.2) e).total
        = e.total + (l.map (fun tr => tr.2.total)).sum)
      ∧ ((l.foldl (fun acc tr => QP.bump acc tr.1 tr.2) e).correct
        = e.correct + (l.map (fun tr => tr.2.correct)).sum)
      ∧ ((l.foldl (fun acc tr => QP.bump acc tr.1 tr.2) e).ungraded
        = e.ungraded + (l.map (fun tr => tr.2.ungraded)).sum) := by
  intro l
  induction l with
  | nil => intro e; simp
  | cons tr rest ih =>
    intro e
    rw [List.foldl_cons]
    obtain ⟨h1, h2, h3⟩ := ih (QP.bump e tr.1 tr.2)
    refine ⟨?_, ?_, ?_⟩
    · rw [h1]
      simp [QP.bump]
      omega
    · rw [h2]
      simp [QP.bump]
      omega
    · rw [h3]
      simp [QP.bump]
      omega

theorem finalizeAcc_total (e : QP.AggEntry) :
    (QP.finalizeAcc e).total = e.total := rfl

theorem finalizeAcc_correct (e : QP.AggEntry) :
    (QP.finalizeAcc e).correct = e.correct := rfl

theorem finalizeAcc_ungraded (e : QP.AggEntry) :
    (QP.finalizeAcc e).ungraded = e.ungraded := rfl

theorem finalizeAcc_accuracy (e : QP.AggEntry) :
    (QP.finalizeAcc e).accuracy
      = if 0 < e.total - e.ungraded
        then (e.correct : Rat) / ((e.total - e.ungraded : Nat) : Rat)
        else 0 := rfl

theorem aggLookup_map_final (l : List (Str × QP.AggEntry)) (label : Str) :
    QP.aggLookup (l.map (fun kv => (kv.1, QP.finalizeAcc kv.2))) label
      = (QP.aggLookup l label).map QP.finalizeAcc := by
  induction l with
  | nil => rfl
  | cons kv rest ih =>
    obtain ⟨k, v⟩ := kv
    rw [List.map_cons, QP.aggLookup, QP.aggLookup]
    by_cases hk : k = label
    · rw [if_pos hk, if_pos hk]
      rfl
    · rw [if_neg hk, if_neg hk, ih]

theorem aggregate_lookup_eq (summaries : List QP.QuizBenchmarkSummary)
    (label : Str) :
    QP.aggLookup (QP._aggregate_by_config summaries) label
      = if (flatResults summaries).any (fun tr => tr.2.label = label)
        then some (QP.finalizeAcc (bumpAll QP.aggInit (flatResults summaries) label))
        else none := by
  unfold QP._aggregate_by_config
  rw [aggLookup_map_final, nested_eq_flat, agg_fold_lookup]
  rw [show QP.aggLookup [] label = none from rfl, optCase_none]
  by_cases ha : ((flatResults summaries).any (fun tr => tr.2.label = label) = true)
  · rw [if_pos ha, if_pos ha]
    rfl
  · rw [if_neg ha, if_neg ha]
    rfl

theorem exAggLookupA :
    QP.aggLookup (QP._aggregate_by_config exSummaries) (pstr "A")
      = some exAggA := by
  rw [aggregate_lookup_eq]
  rw [if_pos (by decide)]
  congr 1
  simp only [bumpAll, flatResults, exSummaries, exResultA1, exResultA2]
  simp only [List.map_cons, List.map_nil, List.flatten]
  norm_num [List.filter, QP.bump, QP.aggInit, QP.finalizeAcc, exAggA]

/-- C5: every entry of the aggregation produced by _aggregate_by_config
carries the summed total, correct and ungraded counts of its label across
all quizzes, and its accuracy is recomputed as summed correct over summed
gradable count (total minus ungraded), 0 when nothing is gradable; on the
concrete two-quiz example the aggregate accuracy for config A is 9/14,
which is not the average (4/5 + 1/4)/2 of the per-quiz accuracies. -/
theorem c5_aggregate (summaries : List QP.QuizBenchmarkSummary) (label : Str)
    (e : QP.AggEntry)
    (h : QP.aggLookup (QP._aggregate_by_config summaries) label = some e) :
    (e.total = sumOver summaries label (fun r => r.total)
     ∧ e.correct = sumOver summaries label (fun r => r.correct)
     ∧ e.ungraded = sumOver summaries label (fun r => r.ungraded)
     ∧ e.accuracy =
         (if 0 < sumOver summaries label (fun r => r.total)
               - sumOver summaries label (fun r => r.ungraded)
          then (sumOver summaries label (fun r => r.correct) : Rat)
            / ((sumOver summaries label (fun r => r.total)
                - sumOver summaries label (fun r => r.ungraded) : Nat) : Rat)
          else 0))
    ∧ (QP.aggLookup (QP._aggregate_by_config exSummaries) (pstr "A")
        = some exAggA
       ∧ exAggA.accuracy ≠ (exResultA1.accuracy + exResultA2.accuracy) / 2) := by
  constructor
  · rw [aggregate_lookup_eq] at h
    by_cases ha : ((flatResults summaries).any (fun tr => tr.2.label = label) = true)
    · rw [if_pos ha] at h
      have he : e = QP.finalizeAcc (bumpAll QP.aggInit (flatResults summaries) label) :=
        (Option.some.inj h).symm
      subst he
      obtain ⟨h1, h2, h3⟩ := bump_fold_fields
        ((flatResults summaries).filter (fun tr => tr.2.label = label)) QP.aggInit
      have hx : bumpAll QP.aggInit (flatResults summaries) label
          = ((flatResults summaries).filter (fun tr => tr.2.label = label)).foldl
              (fun acc tr => QP.bump acc tr.1 tr.2) QP.aggInit := rfl
      have htot : (bumpAll QP.aggInit (flatResults summaries) label).total
          = sumOver summaries label (fun r => r.total) := by
        rw [hx, h1]
        simp [sumOver, QP.aggInit]
      have hcor : (bumpAll QP.aggInit (flatResults summaries) label).correct
          = sumOver summaries label (fun r => r.correct) := by
        rw [hx, h2]
        simp [sumOver, QP.aggInit]
      have hung : (bumpAll QP.aggInit (flatResults summaries) label).ungraded
          = sumOver summaries label (fun r => r.ungraded) := by
        rw [hx, h3]
        simp [sumOver, QP.aggInit]
      refine ⟨?_, ?_, ?_, ?_⟩
      · rw [finalizeAcc_total, htot]
      · rw [finalizeAcc_correct, hcor]
      · rw [finalizeAcc_ungraded, hung]
      · rw [finalizeAcc_accuracy, htot, hcor, hung]
    · rw [if_neg ha] at h
      simp at h
  · refine ⟨exAggLookupA, ?_⟩
    norm_num [exAggA, exResultA1, exResultA2]

theorem c5_aggregate_witness :
    (exAggA.total = sumOver exSummaries (pstr "A") (fun r => r.total)
     ∧ exAggA.correct = sumOver exSummaries (pstr "A") (fun r => r.correct)
     ∧ exAggA.ungraded = sumOver exSummaries (pstr "A") (fun r => r.ungraded)
     ∧ exAggA.accuracy =
         (if 0 < sumOver exSummaries (pstr "A") (fun r => r.total)
               - sumOver exSummaries (pstr "A") (fun r => r.ungraded)
          then (sumOver exSummaries (pstr "A") (fun r => r.correct) : Rat)
            / ((sumOver exSummaries (pstr "A") (fun r => r.total)
                - sumOver exSummaries (pstr "A") (fun r => r.ungraded) : Nat) : Rat)
          else 0))
    ∧ (QP.aggLookup (QP._aggregate_by_config exSummaries) (pstr "A")
        = some exAggA
       ∧ exAggA.accuracy ≠ (exResultA1.accuracy + exResultA2.accuracy) / 2) :=
  c5_aggregate exSummaries (pstr "A") exAggA exAggLookupA

theorem char_le_toNat {a b : Char} : a ≤ b ↔ a.toNat ≤ b.toNat := by
  rw [Char.le_def]
  exact ⟨fun h => h, fun h => h⟩

theorem ofNat_toNat_of_valid {n : Nat} (h : n.isValidChar) :
    (Char.ofNat n).toNat = n := by
  unfold Char.ofNat
  rw [dif_pos h]
  rfl

theorem toUpper_toNat_of_lower {c : Char} (h1 : 'e' ≤ c) (h2 : c ≤ 'z') :
    (Char.toUpper c).toNat = c.toNat - 32 := by
  have ha := char_le_toNat.mp h1
  have hb := char_le_toNat.mp h2
  rw [show ('e' : Char).toNat = 101 from rfl] at ha
  rw [show ('z' : Char).toNat = 122 from rfl] at hb
  unfold Char.toUpper
  simp only []
  rw [if_pos ⟨by omega, by omega⟩]
  have hv : (c.toNat - 32).isValidChar := by
    left
    omega
  exact ofNat_toNat_of_valid hv

theorem singleton_upper_ne (x c : Char) (hx : x.toNat ≤ 68)
    (h1 : 'e' ≤ c) (h2 : c ≤ 'z') :
    (([x] : Str) == [Char.toUpper c]) = false := by
  rw [beq_eq_false_iff_ne]
  intro he
  have hinj : x = Char.toUpper c := by
    injection he with hh _
  have hn := congrArg Char.toNat hinj
  rw [toUpper_toNat_of_lower h1 h2] at hn
  have hge : 101 ≤ c.toNat := by
    have h := char_le_toNat.mp h1
    rw [show ('e' : Char).toNat = 101 from rfl] at h
    exact h
  omega

theorem mcParenAt_letter (s : Str) (c : Char) (h : QP.mcParenAt s = some c) :
    QP.isMcLetter c = true := by
  unfold QP.mcParenAt at h
  repeat' split at h
  all_goals first
    | (cases h; assumption)
    | cases h

theorem mcAnswerIsCore_letter (s : Str) (c : Char)
    (h : QP.mcAnswerIsCore s = some c) : QP.isMcLetter c = true := by
  unfold QP.mcAnswerIsCore at h
  simp only [Option.bind_eq_some] at h
  obtain ⟨r1, _, r2, _, r3, _, r4, _, h⟩ := h
  repeat' split at h
  all_goals first
    | (cases h; assumption)
    | cases h

theorem mcBoldAt_letter (s : Str) (c : Char)
    (h : QP.mcBoldAt s = some c) : QP.isMcLetter c = true := by
  unfold QP.mcBoldAt at h
  simp only [Option.bind_eq_some] at h
  obtain ⟨r1, _, h⟩ := h
  repeat' split at h
  all_goals first
    | (cases h; assumption)
    | cases h

theorem mcLineCore_letter (s : Str) (c : Char)
    (h : QP.mcLineCore s = some c) : QP.isMcLetter c = true := by
  unfold QP.mcLineCore at h
  repeat' split at h
  all_goals try cases h
  rename_i hg
  simp only [Bool.and_eq_true] at hg
  exact hg.1

theorem mcLineAfterNl_letter : ∀ (s : Str) (c : Char),
    QP.mcLineAfterNl s = some c → QP.isMcLetter c = true := by
  intro s
  induction s with
  | nil => intro c h; cases h
  | cons d rest ih =>
    intro c h
    rw [show QP.mcLineAfterNl (d :: rest)
        = (if d = '\n' then
             (match QP.mcLineCore rest with
              | some x => some x
              | none => QP.mcLineAfterNl rest)
           else QP.mcLineAfterNl rest) from rfl] at h
    split at h
    · split at h
      · rename_i x hx
        cases h
        exact mcLineCore_letter rest _ hx
      · exact ih c h
    · exact ih c h

theorem mcLineStart_letter (s : Str) (c : Char)
    (h : QP.mcLineStart s = some c) : QP.isMcLetter c = true := by
  unfold QP.mcLineStart at h
  split at h
  · rename_i x hx
    cases h
    exact mcLineCore_letter s _ hx
  · exact mcLineAfterNl_letter s c h

theorem mcFirstLetter_letter : ∀ (s : Str) (c : Char),
    QP.mcFirstLetter s = some c → QP.isMcLetter c = true := by
  intro s
  induction s with
  | nil => intro c h; cases h
  | cons d rest ih =>
    intro c h
    rw [show QP.mcFirstLetter (d :: rest)
        = (if QP.isMcLetter (Char.toLower d) then some (Char.toLower d)
           else QP.mcFirstLetter rest) from rfl] at h
    split at h
    · cases h
      assumption
    · exact ih c h

theorem firstSome_prop {α β : Type _} (P : β → Prop) (f : α → Option β)
    (hf : ∀ a b, f a = some b → P b) :
    ∀ (l : List α) (b : β), QP.firstSome f l = some b → P b := by
  intro l
  induction l with
  | nil => intro b h; cases h
  | cons x xs ih =>
    intro b h
    rw [show QP.firstSome f (x :: xs)
        = (match f x with
           | some r => some r
           | none => QP.firstSome f xs) from rfl] at h
    split at h
    · rename_i r hr
      cases h
      exact hf x _ hr
    · exact ih b h

theorem scanAll_prop {β : Type _} (P : β → Prop) (f : Str → Option β)
    (hf : ∀ s b, f s = some b → P b) :
    ∀ (s : Str) (b : β), QP.scanAll f s = some b → P b := by
  intro s
  induction s with
  | nil => intro b h; cases h
  | cons c rest ih =>
    intro b h
    rw [show QP.scanAll f (c :: rest)
        = (match f (c :: rest) with
           | some r => some r
           | none => QP.scanAll f rest) from rfl] at h
    split at h
    · rename_i r hr
      cases h
      exact hf _ _ hr
    · exact ih b h

theorem scanBdry_prop {β : Type _} (P : β → Prop) (f : Str → Option β)
    (hf : ∀ s b, f s = some b → P b) :
    ∀ (s : Str) (w : Bool) (b : β), QP.scanBdry f s w = some b → P b := by
  intro s
  induction s with
  | nil => intro w b h; cases h
  | cons c rest ih =>
    intro w b h
    rw [show QP.scanBdry f (c :: rest) w
        = (match (if w then none else f (c :: rest)) with
           | some r => some r
           | none => QP.scanBdry f rest (QP.isWordChar c)) from rfl] at h
    split at h
    · rename_i r hr
      cases h
      cases w with
      | true => cases hr
      | false =>
        have hr2 : f (c :: rest) = some b := by simpa using hr
        exact hf _ _ hr2
    · exact ih (QP.isWordChar c) b h

theorem mcAnswerIsAt_letter (s : Str) (c : Char)
    (h : QP.mcAnswerIsAt s = some c) : QP.isMcLetter c = true := by
  unfold QP.mcAnswerIsAt at h
  refine firstSome_prop (fun x => QP.isMcLetter x = true)
    (fun o : Option Str => o.bind QP.mcAnswerIsCore) ?_ _ c h
  intro a b hab
  rw [Option.bind_eq_some] at hab
  obtain ⟨t, _, ht⟩ := hab
  exact mcAnswerIsCore_letter t b ht

theorem extract_mc_range (response : Str) :
    QP._extract_mc response = pstr "?"
    ∨ ∃ c, QP._extract_mc response = [c] ∧ QP.isMcLetter c = true := by
  simp only [QP._extract_mc]
  rcases h1 : QP.scanAll QP.mcParenAt (pyStrip response) with _ | c
  · rcases h2 : QP.scanBdry QP.mcAnswerIsAt (pyLower (pyStrip response)) false with _ | c
    · rcases h3 : QP.scanAll QP.mcBoldAt (pyLower (pyStrip response)) with _ | c
      · rcases h4 : QP.mcLineStart (pyLower (pyStrip response)) with _ | c
        · rcases h5 : QP.mcFirstLetter (pyStrip response) with _ | c
          · exact Or.inl rfl
          · exact Or.inr ⟨c, rfl, mcFirstLetter_letter _ _ h5⟩
        · exact Or.inr ⟨c, rfl, mcLineStart_letter _ _ h4⟩
      · exact Or.inr ⟨c, rfl, scanAll_prop _ _ mcBoldAt_letter _ _ h3⟩
    · exact Or.inr ⟨c, rfl, scanBdry_prop _ _ mcAnswerIsAt_letter _ _ _ h2⟩
  · exact Or.inr ⟨c, rfl, scanAll_prop _ _ mcParenAt_letter _ _ h1⟩

/-- C10: when a multiple-choice question's answer-key entry carries a
letter beyond d (between e and z), grade_question always returns
is_correct = some false with score -1, because _extract_mc only ever
produces a letter a-d or the unknown code "?"; moreover the key letter
chr(ord a + i) built by parse_json_quiz lies beyond d exactly when the
answer index i exceeds 3 (the option count is irrelevant). -/
theorem c10_mc_beyond_d (q : QP.Question) (llm : Str)
    (key : List (Str × QP.AnswerKeyEntry)) (entry : QP.AnswerKeyEntry) (c : Char)
    (hq : q.qtype = pstr "mc")
    (hk : QP.dictGet key q.id = some entry)
    (ha : entry.answer = [c])
    (h1 : 'e' ≤ c) (h2 : c ≤ 'z') :
    ((QP.grade_question q llm key).is_correct = some false
     ∧ (QP.grade_question q llm key).score = -1)
    ∧ (∀ i, i ≤ 25 →
        ((∃ d, QP.ansLetter i = [d] ∧ 'e' ≤ d ∧ d ≤ 'z') ↔ 3 < i)) := by
  have hcond : (decide (q.qtype = pstr "tf")
      || decide (q.qtype = pstr "mc")) = true := by
    rw [hq]
    decide
  have hex : QP.extract_answer llm q.qtype = pstr "?"
      ∨ ∃ d, QP.extract_answer llm q.qtype = [d] ∧ QP.isMcLetter d = true := by
    rw [hq]
    simp only [QP.extract_answer]
    by_cases hc0 : pyStrip llm = []
    · rw [if_pos hc0]
      exact Or.inl rfl
    · rw [if_neg hc0]
      rw [if_neg (by decide : ¬(pstr "mc" = pstr "tf"))]
      rw [if_pos trivial]
      exact extract_mc_range (pyStrip llm)
  have hic : (pyUpper (QP.extract_answer llm q.qtype)
      == pyUpper entry.answer) = false := by
    rw [ha]
    rcases hex with hh | ⟨d, hh, hd⟩
    · rw [hh]
      exact singleton_upper_ne (Char.toUpper '?') c (by decide) h1 h2
    · rw [hh]
      have hx : (Char.toUpper d).toNat ≤ 68 := by
        simp only [QP.isMcLetter, Bool.or_eq_true, decide_eq_true_eq] at hd
        rcases hd with ((h | h) | h) | h <;> subst h <;> decide
      exact singleton_upper_ne (Char.toUpper d) c hx h1 h2
  refine ⟨⟨?_, ?_⟩, ?_⟩
  · simp [QP.grade_question, hk, hcond, hic]
  · simp [QP.grade_question, hk, hcond, hic]
  · intro i hi
    have hv : (97 + i).isValidChar := by
      left
      omega
    have ht : (Char.ofNat (97 + i)).toNat = 97 + i := ofNat_toNat_of_valid hv
    constructor
    · rintro ⟨d, hd, hd1, _⟩
      have hdd : d = Char.ofNat (97 + i) := by
        unfold QP.ansLetter at hd
        injection hd with hh _
        exact hh.symm
      subst hdd
      have hle := char_le_toNat.mp hd1
      rw [ht, show ('e' : Char).toNat = 101 from rfl] at hle
      omega
    · intro hgt
      refine ⟨Char.ofNat (97 + i), rfl, ?_, ?_⟩
      · rw [char_le_toNat, ht, show ('e' : Char).toNat = 101 from rfl]
        omega
      · rw [char_le_toNat, ht, show ('z' : Char).toNat = 122 from rfl]
        omega

/-- Claim C10 witness: a concrete mc question whose key letter is e,
graded against the response "(a)". -/
theorem c10_mc_beyond_d_witness :
    ((QP.grade_question wmcq (pstr "(a)") wmckey).is_correct = some false
     ∧ (QP.grade_question wmcq (pstr "(a)") wmckey).score = -1)
    ∧ (∀ i, i ≤ 25 →
        ((∃ d, QP.ansLetter i = [d] ∧ 'e' ≤ d ∧ d ≤ 'z') ↔ 3 < i)) :=
  c10_mc_beyond_d wmcq (pstr "(a)") wmckey
    { id := pstr "MC-9", answer := pstr "e", explanation := [] } 'e'
    rfl (by decide) rfl (by decide) (by decide)

/-- Claim C10 counterexample: parse_json_quiz on a file whose single
multiple-choice question has five options and answer index 0 yields an
answer-key letter "a": more than four options alone never puts the key
letter beyond d, contrary to the claim's parenthetical. -/
theorem c10_claim_counterexample :
    (QP.parse_json_quiz cexJFile none).map
      (fun r => (r.1.map (fun q => (q.qtype, q.choices.length)),
                 (QP.dictGet r.2.1 (pstr "MC-1")).map (fun e => e.answer)))
      = .ok ([(pstr "mc", 5)], some (pstr "a")) := rfl
